import Mathlib

/-!
# Verification of the chress board core

A shallow embedding of the bitboard chess core of the `chress` repository
(the `Board` of `src/chress/src/board/mod.rs`, its shared `MoveGen` of
`src/chress/src/move_gen/mod.rs`, and the perft/divide harness of
`src/chress/src/debug/mod.rs`), together with theorems settling the spec
claims about it.

Machine integers are embedded as `Nat` with explicit `% 2^w` (or `&&& mask`)
where wraparound matters.  `u64` bitboards are `Nat` values kept below
`2 ^ 64`; `u8` flag bytes are `Nat` values below `256`.  Rust `Result`/error
paths become `Option` (`none` = `Err`); unreachable `panic!`/`unwrap`
failures inside the generator are modelled by emitting nothing (each such
place is marked by a comment).

The `build` module (`build/magics.rs`, `build/movemasks.rs`) and the board
module's `piece.rs` / `square.rs` are not present under `src/`; definitions
derived from them are modelled from the spec and marked as such.
-/

set_option maxHeartbeats 4000000
set_option maxRecDepth 100000

namespace Chress

/-- Color, from `src/chress/src/board/color.rs`: `White = 0`, `Black = 1`. -/
inductive Color where
| white
| black
deriving DecidableEq

/-- The `repr(u8)` discriminant of `Color`. -/
def Color.toNat : Color → Nat
| .white => 0
| .black => 1

/-- `Color::inverse` (source: `ALL[(*self as usize) ^ 1]`). -/
def Color.inverse : Color → Color
| .white => .black
| .black => .white

/-- `Color::direction`: `1 - (*self as i8 * 2)`. -/
def Color.direction (c : Color) : Int := 1 - 2 * (c.toNat : Int)

/-- `Color::en_passant_rank`: `2 + (*self as u8 * 3)`. -/
def Color.en_passant_rank (c : Color) : Nat := 2 + c.toNat * 3

/-- Piece kinds.  The board module's `piece.rs` is not under `src/`; the
enum order `Knight, Bishop, Rook, Queen, King, Pawn` is modelled from the
spec (promotion pieces are a contiguous low subrange, §3) and fixed by the
bitboard layout visible in `src/chress/src/board/mod.rs` (the `Default`
impl lists the twelve bitboards with kings at index 4 and pawns at index 5,
and `piece_at` reads them back in that order). -/
inductive Piece where
| knight
| bishop
| rook
| queen
| king
| pawn
deriving DecidableEq

/-- The `repr(u8)` discriminant of `Piece`. -/
def Piece.toNat : Piece → Nat
| .knight => 0
| .bishop => 1
| .rook => 2
| .queen => 3
| .king => 4
| .pawn => 5

/-- `Piece::promotion_mask`: `(1 << *self as u16) & Move::PROMOTION_MASK`.
Modelled from the spec (§3 bit packing); the function lives in the missing
board `piece.rs`, its one-hot values are pinned down by the `LOOKUP` table
in `src/chress/src/board/move.rs`. -/
def Piece.promotion_mask (p : Piece) : Nat := (1 <<< p.toNat) &&& 15

/-- A square index, 0 = a1 … 63 = h8 (board module `square.rs`, modelled
from the spec §3: `rank = value / 8`, `file = value % 8`). -/
abbrev Square := Fin 64

/-- `Square::bitboard`: `1 << (*self as u8)`. -/
def sqBB (sq : Square) : Nat := 1 <<< sq.val

/-- `u64` complement (`!` on a `Bitboard`), i.e. xor with `u64::MAX`. -/
def bbNot (x : Nat) : Nat := (2 ^ 64 - 1) ^^^ x

/-- `u8` complement (`!` on a `Flags` byte). -/
def f8Not (x : Nat) : Nat := 255 ^^^ x

-- Named squares used by the castling tables and the concrete positions.
def A1 : Square := ⟨0, by decide⟩
def B1 : Square := ⟨1, by decide⟩
def C1 : Square := ⟨2, by decide⟩
def D1 : Square := ⟨3, by decide⟩
def E1 : Square := ⟨4, by decide⟩
def F1 : Square := ⟨5, by decide⟩
def G1 : Square := ⟨6, by decide⟩
def H1 : Square := ⟨7, by decide⟩
def E2 : Square := ⟨12, by decide⟩
def B8 : Square := ⟨57, by decide⟩
def A4 : Square := ⟨24, by decide⟩
def E4 : Square := ⟨28, by decide⟩
def G5 : Square := ⟨38, by decide⟩
def A7 : Square := ⟨48, by decide⟩
def B7 : Square := ⟨49, by decide⟩
def A8 : Square := ⟨56, by decide⟩
def C8 : Square := ⟨58, by decide⟩
def D8 : Square := ⟨59, by decide⟩
def E8 : Square := ⟨60, by decide⟩
def F8 : Square := ⟨61, by decide⟩
def G8 : Square := ⟨62, by decide⟩
def H8 : Square := ⟨63, by decide⟩

/-- `Move`, a packed 16-bit value: `from << 10 | to << 4 | promotion mask`
(`src/chress/src/board/move.rs`). -/
structure Move where
  data : Nat
deriving DecidableEq

/-- `Move::new`. -/
def Move.new (f t : Square) : Move := ⟨(f.val <<< 10) ||| (t.val <<< 4)⟩

/-- `Move::new_with_promotion`. -/
def Move.new_with_promotion (f t : Square) (p : Piece) : Move :=
  ⟨(f.val <<< 10) ||| (t.val <<< 4) ||| p.promotion_mask⟩

/-- `Move::from` (`Square::ALL[self.0 >> 10]`; a `u16` shifted right by 10
is below 64, the `% 64` only realises that bound in the embedding). -/
def Move.fromSq (m : Move) : Square := ⟨(m.data >>> 10) % 64, Nat.mod_lt _ (by decide)⟩

/-- `Move::to` (`Square::ALL[(self.0 >> 4) & 0b111111]`). -/
def Move.toSq (m : Move) : Square := ⟨(m.data >>> 4) &&& 63, Nat.lt_succ_of_le Nat.and_le_right⟩

/-- `Move::promotion`, via the 9-entry `LOOKUP` table
`[None, Knight, Bishop, None, Rook, None, None, None, Queen]`.
Indices 9–15 would panic in Rust (index out of bounds) and are modelled
as `none`; they never occur for generator-built moves. -/
def Move.promotion (m : Move) : Option Piece :=
  match m.data &&& 15 with
  | 1 => some .knight
  | 2 => some .bishop
  | 4 => some .rook
  | 8 => some .queen
  | _ => none

/-- `MoveData` (`src/chress/src/board/move.rs`). -/
structure MoveData where
  move : Move
  captured_piece : Option Piece
  flags : Nat
  halfmoves : Nat
deriving DecidableEq

namespace Flags

/-- `Flags::kingside`: `(self.0 >> (color as u8 * 2)) & WHITE_KINGSIDE.0 != 0`. -/
def kingside (f : Nat) (c : Color) : Bool := (f >>> (c.toNat * 2)) &&& 1 != 0

/-- `Flags::queenside`: `(self.0 >> (color as u8 * 2)) & WHITE_QUEENSIDE.0 != 0`. -/
def queenside (f : Nat) (c : Color) : Bool := (f >>> (c.toNat * 2)) &&& 2 != 0

/-- `Flags::white_kingside` (bit 0). -/
def white_kingside (f : Nat) : Bool := f &&& 1 != 0

/-- `Flags::white_queenside` (bit 1). -/
def white_queenside (f : Nat) : Bool := f &&& 2 != 0

/-- `Flags::black_kingside` (bit 2). -/
def black_kingside (f : Nat) : Bool := f &&& 4 != 0

/-- `Flags::black_queenside` (bit 3). -/
def black_queenside (f : Nat) : Bool := f &&& 8 != 0

/-- `Flags::en_passant_valid` (bit 7). -/
def en_passant_valid (f : Nat) : Bool := f &&& 128 != 0

/-- `Flags::en_passant_file_unchecked` (bits 4–6). -/
def en_passant_file_unchecked (f : Nat) : Nat := (f &&& 112) >>> 4

/-- `Flags::en_passant_file`. -/
def en_passant_file (f : Nat) : Option Nat :=
  if en_passant_valid f then some ((f &&& 112) >>> 4) else none

end Flags

/-- The aggregate position (`src/chress/src/board/mod.rs`):
12 piece bitboards, active color, flags byte, half/full-move counters. -/
structure Board where
  pieces : Fin 12 → Nat
  active_color : Color
  flags : Nat
  halfmoves : Nat
  fullmoves : Nat

instance : DecidableEq Board := fun a b =>
  decidable_of_iff
    ((List.finRange 12).map a.pieces = (List.finRange 12).map b.pieces ∧
      a.active_color = b.active_color ∧ a.flags = b.flags ∧
      a.halfmoves = b.halfmoves ∧ a.fullmoves = b.fullmoves) (by
    constructor
    · rintro ⟨hp, h2, h3, h4, h5⟩
      have hfun : a.pieces = b.pieces := by
        funext i
        exact List.map_inj_left.mp hp i (List.mem_finRange i)
      cases a; cases b; simp_all
    · rintro rfl
      exact ⟨rfl, rfl, rfl, rfl, rfl⟩)

instance : DecidableEq (Option Board) := fun a b =>
  match a, b with
  | none, none => isTrue rfl
  | some x, some y => decidable_of_iff (x = y)
      ⟨fun h => by rw [h], fun h => by injection h⟩
  | none, some _ => isFalse (fun h => Option.noConfusion h)
  | some _, none => isFalse (fun h => Option.noConfusion h)

/-- `Board::bitboard_index`: `piece as usize + (color as usize * 6)`. -/
def Board.bitboard_index (p : Piece) (c : Color) : Fin 12 :=
  ⟨p.toNat + c.toNat * 6, by cases p <;> cases c <;> decide⟩

/-- `Board::bitboard`. -/
def Board.bitboard (b : Board) (p : Piece) (c : Color) : Nat :=
  b.pieces (Board.bitboard_index p c)

/-- Pointwise update of the bitboard array (a `self.pieces[i] = v` write). -/
def setIdx (ps : Fin 12 → Nat) (i : Fin 12) (v : Nat) : Fin 12 → Nat :=
  fun j => if j = i then v else ps j

/-- `Board::add_piece`: or the square's bit into the piece's bitboard. -/
def Board.add_piece (b : Board) (p : Piece) (c : Color) (sq : Square) : Board :=
  { b with pieces := (setIdx b.pieces (Board.bitboard_index p c)
      (b.pieces (Board.bitboard_index p c) ||| sqBB sq)) }

/-- `Board::remove_piece`: clear the square's bit in the piece's bitboard. -/
def Board.remove_piece (b : Board) (p : Piece) (c : Color) (sq : Square) : Board :=
  { b with pieces := (setIdx b.pieces (Board.bitboard_index p c)
      (b.pieces (Board.bitboard_index p c) &&& bbNot (sqBB sq))) }

/-- `Board::white_pieces` — the union of `pieces[6..12]` (note: with
`bitboard_index = piece + 6 * color` and `White = 0` these are the BLACK
side's bitboards; the accessor naming is inverted, see claim C10). -/
def Board.white_pieces (b : Board) : Nat :=
  b.pieces 6 ||| b.pieces 7 ||| b.pieces 8 ||| b.pieces 9 ||| b.pieces 10 ||| b.pieces 11

/-- `Board::black_pieces` — the union of `pieces[0..6]`. -/
def Board.black_pieces (b : Board) : Nat :=
  b.pieces 0 ||| b.pieces 1 ||| b.pieces 2 ||| b.pieces 3 ||| b.pieces 4 ||| b.pieces 5

/-- `Board::occupied`. -/
def Board.occupied (b : Board) : Nat := b.white_pieces ||| b.black_pieces

/-- `Board::empty`. -/
def Board.empty (b : Board) : Nat := bbNot b.occupied

/-- `Board::friendly_pieces`: union of `pieces[off .. off+5]` with
`off = active_color as usize * 6` (0 for White, 6 for Black). -/
def Board.friendly_pieces (b : Board) : Nat :=
  match b.active_color with
  | .white => b.pieces 0 ||| b.pieces 1 ||| b.pieces 2 ||| b.pieces 3 ||| b.pieces 4 ||| b.pieces 5
  | .black => b.pieces 6 ||| b.pieces 7 ||| b.pieces 8 ||| b.pieces 9 ||| b.pieces 10 ||| b.pieces 11

/-- `Board::enemy_pieces`: union of `pieces[6-off .. 11-off]`. -/
def Board.enemy_pieces (b : Board) : Nat :=
  match b.active_color with
  | .white => b.pieces 6 ||| b.pieces 7 ||| b.pieces 8 ||| b.pieces 9 ||| b.pieces 10 ||| b.pieces 11
  | .black => b.pieces 0 ||| b.pieces 1 ||| b.pieces 2 ||| b.pieces 3 ||| b.pieces 4 ||| b.pieces 5

/-- `Board::piece_at`, the branchless or-of-products lookup.  An index of 7
(possible only when distinct piece bitboards overlap on the square) would
panic in Rust (`PIECES[7]` is out of bounds) and is modelled as `none`. -/
def Board.piece_at (b : Board) (square : Square) : Option Piece :=
  let mask := sqBB square
  let knights := if (b.pieces 0 ||| b.pieces 6) &&& mask ≠ 0 then 1 else 0
  let bishops := if (b.pieces 1 ||| b.pieces 7) &&& mask ≠ 0 then 2 else 0
  let rooks := if (b.pieces 2 ||| b.pieces 8) &&& mask ≠ 0 then 3 else 0
  let queens := if (b.pieces 3 ||| b.pieces 9) &&& mask ≠ 0 then 4 else 0
  let kings := if (b.pieces 4 ||| b.pieces 10) &&& mask ≠ 0 then 5 else 0
  let pawns := if (b.pieces 5 ||| b.pieces 11) &&& mask ≠ 0 then 6 else 0
  match knights ||| bishops ||| rooks ||| queens ||| kings ||| pawns with
  | 1 => some .knight
  | 2 => some .bishop
  | 3 => some .rook
  | 4 => some .queen
  | 5 => some .king
  | 6 => some .pawn
  | _ => none

/-- `KING_STARTING_SQUARES` (`src/chress/src/board/mod.rs`). -/
def KING_STARTING_SQUARES (c : Color) : Square :=
  match c with
  | .white => E1
  | .black => E8

/-- `CASTLING_BLOCKERS` (index 0 = kingside, 1 = queenside). -/
def CASTLING_BLOCKERS (c : Color) (i : Fin 2) : Nat :=
  match c with
  | .white => if i.val = 0 then sqBB F1 ||| sqBB G1 else sqBB D1 ||| sqBB C1 ||| sqBB B1
  | .black => if i.val = 0 then sqBB F8 ||| sqBB G8 else sqBB D8 ||| sqBB C8 ||| sqBB B8

/-- `CASTLING_CHECKABLES` — note both entries contain the king's landing
square (G1/C1 rsp. G8/C8); see claim C6. -/
def CASTLING_CHECKABLES (c : Color) (i : Fin 2) : Nat :=
  match c with
  | .white => if i.val = 0 then sqBB F1 ||| sqBB G1 else sqBB D1 ||| sqBB C1
  | .black => if i.val = 0 then sqBB F8 ||| sqBB G8 else sqBB D8 ||| sqBB C8

/-- `CASTLING_DESTINATIONS`. -/
def CASTLING_DESTINATIONS (c : Color) (i : Fin 2) : Square :=
  match c with
  | .white => if i.val = 0 then G1 else C1
  | .black => if i.val = 0 then G8 else C8

/-- `CASTLING_RIGHTS_FLAGS`: `UNIVERSE` except at the four rook home
squares, where the corresponding right bit is cleared. -/
def CASTLING_RIGHTS_FLAGS (sq : Square) : Nat :=
  if sq = A1 then f8Not 2
  else if sq = A8 then f8Not 8
  else if sq = H1 then f8Not 1
  else if sq = H8 then f8Not 4
  else 255

/-- `ROOK_CASTLING_MOVEMASKS`: nonzero only at the four king castling
destinations. -/
def ROOK_CASTLING_MOVEMASKS (sq : Square) : Nat :=
  if sq = G1 then sqBB H1 ||| sqBB F1
  else if sq = G8 then sqBB H8 ||| sqBB F8
  else if sq = C1 then sqBB A1 ||| sqBB D1
  else if sq = C8 then sqBB A8 ||| sqBB D8
  else 0

/-- `Board::default()`: the standard starting position, with the twelve
bitboard constants written in the source's order. -/
def Board.default : Board :=
  { pieces := fun i =>
      [66, 36, 129, 8, 16, 65280,
       4755801206503243776, 2594073385365405696, 9295429630892703744,
       576460752303423488, 1152921504606846976, 71776119061217280].getD i.val 0,
    active_color := .white,
    flags := 15,
    halfmoves := 0,
    fullmoves := 1 }

/-- `Board::make_move` (`src/chress/src/board/mod.rs`, lines 511–616).
Returns the post-state together with `some MoveData` on success; on the
single failure path (`from` square empty) the pre-state is returned
unchanged together with `none` (the Rust early `return Err(MakeMoveError)`
happens before any mutation). -/
def Board.make_move (b : Board) (m : Move) : Board × Option MoveData :=
  let color := b.active_color
  let f := m.fromSq
  let t := m.toSq
  let promotion := m.promotion
  match b.piece_at f with
  | none => (b, none)
  | some moved_piece =>
    -- snapshot for MoveData (captured_piece may be overridden by en passant)
    let captured0 := b.piece_at t
    -- halfmoves += 1 (u32 add)
    let b1 : Board := { b with halfmoves := (b.halfmoves + 1) % 4294967296 }
    -- special pawn moves / en-passant clearing for non-pawn movers
    let stage : Board × Option Piece :=
      if moved_piece = Piece.pawn then
        let bp : Board := { b1 with halfmoves := 0 }
        let is_double := Nat.dist (f.val / 8) (t.val / 8) = 2
        let bp1 : Board := { bp with flags := bp.flags &&& f8Not (if is_double then 112 else 0) }
        let bp2 : Board :=
          { bp1 with flags := bp1.flags ||| (if is_double then 128 ||| ((f.val % 8) <<< 4) else 0) }
        if is_double then (bp2, captured0)
        else
          let is_en_passant : Bool :=
            match Flags.en_passant_file bp2.flags with
            | some file => 1 <<< (color.inverse.en_passant_rank * 8 + file) == sqBB t
            | none => false
          let bp3 : Board := { bp2 with flags := bp2.flags &&& f8Not 128 }
          if is_en_passant then
            let capture_square : Square :=
              ⟨f.val / 8 * 8 + t.val % 8, by have := f.isLt; omega⟩
            (bp3.remove_piece Piece.pawn color.inverse capture_square, some Piece.pawn)
          else (bp3, captured0)
      else ({ b1 with flags := b1.flags &&& f8Not 128 }, captured0)
    let b2 := stage.1
    let captured1 := stage.2
    -- king moves: strip both castling rights of the mover's color
    let b3 : Board :=
      { b2 with flags := b2.flags &&& f8Not (if moved_piece = Piece.king then 3 <<< (color.toNat * 2) else 0) }
    let is_castling := moved_piece = Piece.king ∧ Nat.dist (f.val % 8) (t.val % 8) = 2
    -- move the rook via the precomputed movemask (xor; mask * bool in source)
    let rookIdx := Board.bitboard_index Piece.rook color
    let b4 : Board :=
      { b3 with pieces := (setIdx b3.pieces rookIdx
          (b3.pieces rookIdx ^^^ (if is_castling then ROOK_CASTLING_MOVEMASKS t else 0))) }
    -- castling-rights invalidation by rook movement (from) and capture (to)
    let b5 : Board :=
      { b4 with flags := b4.flags &&& (CASTLING_RIGHTS_FLAGS f ||| (if moved_piece = Piece.rook then 0 else 255)) }
    let b6 : Board := { b5 with flags := b5.flags &&& CASTLING_RIGHTS_FLAGS t }
    let b7 := b6.remove_piece moved_piece color f
    let b8 :=
      match promotion with
      | some promoted_piece => b7.add_piece promoted_piece color t
      | none => b7.add_piece moved_piece color t
    let b9 :=
      match captured1 with
      | some captured_piece => b8.remove_piece captured_piece color.inverse t
      | none => b8
    let b10 : Board := { b9 with active_color := color.inverse }
    -- fullmoves += color.inverse() as u32 (u32 add)
    let b11 : Board := { b10 with fullmoves := (b10.fullmoves + color.inverse.toNat) % 4294967296 }
    (b11, some { move := m, captured_piece := captured1, flags := b.flags, halfmoves := b.halfmoves })

/-- `Board::unmake_move` (`src/chress/src/board/mod.rs`, lines 623–693).
`none` models the `UnmakeMoveError` path (no piece on the `to` square).
The `u32` subtraction `fullmoves -= active_color as u32` is embedded as
truncating `Nat` subtraction (Rust would panic on underflow in debug). -/
def Board.unmake_move (b : Board) (move_data : MoveData) : Option Board :=
  let f := move_data.move.fromSq
  let t := move_data.move.toSq
  let promotion := move_data.move.promotion
  let color := b.active_color.inverse
  let resolved : Option (Piece × Piece) :=
    match promotion with
    | some promoted_piece => some (Piece.pawn, promoted_piece)
    | none =>
      match b.piece_at t with
      | none => none
      | some moved_piece => some (moved_piece, moved_piece)
  match resolved with
  | none => none
  | some (moved_piece, piece_at_to) =>
    let b1 := b.add_piece moved_piece color f
    let b2 := b1.remove_piece piece_at_to color t
    let is_castling := moved_piece = Piece.king ∧ Nat.dist (f.val % 8) (t.val % 8) = 2
    let rookIdx := Board.bitboard_index Piece.rook color
    let b3 : Board :=
      { b2 with pieces := (setIdx b2.pieces rookIdx
          (b2.pieces rookIdx ^^^ (if is_castling then ROOK_CASTLING_MOVEMASKS t else 0))) }
    let b4 :=
      match move_data.captured_piece with
      | none => b3
      | some captured_piece =>
        let ep_mask0 := 1 <<< (color.inverse.en_passant_rank * 8 + Flags.en_passant_file_unchecked move_data.flags)
        let is_en_passant := Flags.en_passant_valid move_data.flags ∧ ep_mask0 = sqBB t
        -- shl = (ep_mask << 8) * !is_white; shr = (ep_mask >> 8) * is_white; ep_mask = shl | shr
        let ep_mask1 := if color = Color.white then ep_mask0 >>> 8 else (ep_mask0 <<< 8) &&& (2 ^ 64 - 1)
        let square_mask := if is_en_passant then ep_mask1 else sqBB t
        let capIdx := Board.bitboard_index captured_piece color.inverse
        { b3 with pieces := setIdx b3.pieces capIdx (b3.pieces capIdx ||| square_mask) }
    some { b4 with
      halfmoves := move_data.halfmoves,
      fullmoves := b4.fullmoves - b.active_color.toNat,
      flags := move_data.flags,
      active_color := color }

/-- The union of one side's six piece bitboards, indexed by the actual
`Color` argument of `bitboard` (used to state claim C10). -/
def Board.pieces_union (b : Board) (c : Color) : Nat :=
  b.bitboard .knight c ||| b.bitboard .bishop c ||| b.bitboard .rook c |||
  b.bitboard .queen c ||| b.bitboard .king c ||| b.bitboard .pawn c

/-! ## Attack masks and move generation

`build/movemasks.rs` and `build/magics.rs` are not under `src/`, so the
static mask tables and the magic lookup are modelled from the spec; the
slider ray-cast itself is translated from
`src/chress/src/board/sliding_moves.rs`. -/

/-- Modelled from the spec: `KNIGHT_MOVES` (`build/movemasks.rs` is missing
from src); §4.3: knights use "static precomputed per-square attack
bitboards", i.e. the standard knight pattern (rank/file distance (1,2) or
(2,1)). -/
def KNIGHT_MOVES (sq : Square) : Nat :=
  (List.range 64).foldl (fun acc t =>
    if (Nat.dist (sq.val / 8) (t / 8) = 1 ∧ Nat.dist (sq.val % 8) (t % 8) = 2) ∨
       (Nat.dist (sq.val / 8) (t / 8) = 2 ∧ Nat.dist (sq.val % 8) (t % 8) = 1)
    then acc ||| (1 <<< t) else acc) 0

/-- Modelled from the spec: `KING_MOVES` (`build/movemasks.rs` is missing
from src); the standard king pattern (Chebyshev distance 1). -/
def KING_MOVES (sq : Square) : Nat :=
  (List.range 64).foldl (fun acc t =>
    if Nat.dist (sq.val / 8) (t / 8) ≤ 1 ∧ Nat.dist (sq.val % 8) (t % 8) ≤ 1 ∧ t ≠ sq.val
    then acc ||| (1 <<< t) else acc) 0

/-- Modelled from the spec: `PAWN_CAPTURES[color][square]`
(`build/movemasks.rs` is missing from src); §4.3: pawn captures are the
"diagonal attack pattern", one rank ahead in the color's push direction,
one file aside. -/
def PAWN_CAPTURES (c : Color) (sq : Square) : Nat :=
  (List.range 64).foldl (fun acc t =>
    if (if c = Color.white then t / 8 = sq.val / 8 + 1 else t / 8 + 1 = sq.val / 8) ∧
       Nat.dist (sq.val % 8) (t % 8) = 1
    then acc ||| (1 <<< t) else acc) 0

/-- `ROOK_MOVE_OFFSETS` (`src/chress/src/board/sliding_moves.rs`). -/
def ROOK_MOVE_OFFSETS : List Int := [1, 8, -1, -8]

/-- `BISHOP_MOVE_OFFSETS`. -/
def BISHOP_MOVE_OFFSETS : List Int := [7, 9, -7, -9]

/-- One ray of `Slider::moves`: step by `offset` from `target`, stopping
off-board (negative or ≥ 64), on rank/file wrap, or after adding a blocker.
The fuel (8 suffices on a 8×8 board) replaces the source's unbounded
`loop`. -/
def rayGo : Nat → Nat → Int → Int → Nat → Nat → Nat
| 0, _, _, _, _, _ => 0
| fuel + 1, blockers, offset, target, prevR, prevF =>
  let t1 := target + offset
  if t1 < 0 ∨ 64 ≤ t1 then 0
  else
    let tn := t1.toNat
    if 1 < Nat.dist (tn / 8) prevR ∨ 1 < Nat.dist (tn % 8) prevF then 0
    else (1 <<< tn) |||
      (if (1 <<< tn) &&& blockers ≠ 0 then 0
       else rayGo fuel blockers offset t1 (tn / 8) (tn % 8))

/-- `Slider::moves`: union of the four rays. -/
def slider_moves (offsets : List Int) (sq : Square) (blockers : Nat) : Nat :=
  offsets.foldl (fun acc o => acc ||| rayGo 8 blockers o (sq.val : Int) (sq.val / 8) (sq.val % 8)) 0

namespace MoveGen

/-- Modelled from the spec (§4.1): the magic constants of
`build/magics.rs` are not under `src/`, and the spec guarantees the hash
`(blockers & mask) * magic >> shift` is collision-free, so the table
lookup `MoveGen::rook_attacks` returns exactly the ray-cast attack set of
`Slider::moves` for the given blockers. -/
def rook_attacks (sq : Square) (blockers : Nat) : Nat :=
  slider_moves ROOK_MOVE_OFFSETS sq blockers

/-- Modelled from the spec (§4.1), as for `rook_attacks`. -/
def bishop_attacks (sq : Square) (blockers : Nat) : Nat :=
  slider_moves BISHOP_MOVE_OFFSETS sq blockers

/-- `MoveGen::queen_attacks`. -/
def queen_attacks (sq : Square) (blockers : Nat) : Nat :=
  rook_attacks sq blockers ||| bishop_attacks sq blockers

/-- `MoveGen::square_attacked_by` (early-return chain). -/
def square_attacked_by (b : Board) (square : Square) (attacker_color : Color) : Bool :=
  let pawn_attackers := PAWN_CAPTURES attacker_color.inverse square &&& b.bitboard .pawn attacker_color
  if pawn_attackers ≠ 0 then true
  else
    let king_attacks := KING_MOVES square &&& b.bitboard .king attacker_color
    if king_attacks ≠ 0 then true
    else
      let knight_attacks := KNIGHT_MOVES square &&& b.bitboard .knight attacker_color
      if knight_attacks ≠ 0 then true
      else
        let rooks_queens := b.bitboard .rook attacker_color ||| b.bitboard .queen attacker_color
        if rook_attacks square b.occupied &&& rooks_queens ≠ 0 then true
        else
          let bishops_queens := b.bitboard .bishop attacker_color ||| b.bitboard .queen attacker_color
          if bishop_attacks square b.occupied &&& bishops_queens ≠ 0 then true
          else false

/-- `MoveGen::white_pawns_able_to_push`. -/
def white_pawns_able_to_push (b : Board) (empty : Nat) : Nat :=
  (empty >>> 8) &&& b.bitboard .pawn .white

/-- `MoveGen::black_pawns_able_to_push` (`empty << 8` is a `u64` shift, so
the result is truncated to 64 bits). -/
def black_pawns_able_to_push (b : Board) (empty : Nat) : Nat :=
  ((empty <<< 8) &&& (2 ^ 64 - 1)) &&& b.bitboard .pawn .black

/-- `MoveGen::white_pawns_able_to_double_push`. -/
def white_pawns_able_to_double_push (b : Board) (empty : Nat) : Nat :=
  let empty_in_rank_3 := ((empty &&& 0x00000000FF000000) >>> 8) &&& empty
  white_pawns_able_to_push b empty_in_rank_3

/-- `MoveGen::black_pawns_able_to_double_push`. -/
def black_pawns_able_to_double_push (b : Board) (empty : Nat) : Nat :=
  let empty_in_rank_6 := (((empty &&& 0x000000FF00000000) <<< 8) &&& (2 ^ 64 - 1)) &&& empty
  black_pawns_able_to_push b empty_in_rank_6

end MoveGen

/-- The squares of a bitboard's set bits, in ascending (pop-lsb) order;
bitboards are `u64` values so bits are below 64. -/
def squaresOf (n : Nat) : List Square :=
  (List.finRange 64).filter (fun i => n.testBit i.val)

/-- The four promotion expansions of a pawn move, in source order. -/
def promos (f t : Square) : List Move :=
  [Move.new_with_promotion f t .knight, Move.new_with_promotion f t .bishop,
   Move.new_with_promotion f t .rook, Move.new_with_promotion f t .queen]

/-- The en-passant target square encoded in a flags byte for the side
whose color is `c` (rank from `c.inverse().en_passant_rank()`, file from
the flags' file bits). -/
def epTargetSq (c : Color) (flags : Nat) : Square :=
  ⟨c.inverse.en_passant_rank * 8 + Flags.en_passant_file_unchecked flags, by
    have h1 : flags &&& 112 ≤ 112 := Nat.and_le_right
    have h2 : Flags.en_passant_file_unchecked flags < 8 := by
      unfold Flags.en_passant_file_unchecked
      rw [Nat.shiftRight_eq_div_pow]
      omega
    cases c <;> simp [Color.inverse, Color.en_passant_rank, Color.toNat] <;> omega⟩

namespace MoveGen

/-- The single-push from-set `pseudolegal_moves` actually selects:
`pawn_data[color as usize]` where `pawn_data` lists the BLACK pair first
(`src/chress/src/move_gen/mod.rs`, lines 193–204) while `Color::White = 0`
— so on White's turn the generator uses Black's push set and vice versa.
(The older `board.rs` lineage had the opposite color discriminants, cf.
its `KING_STARTING_SQUARES: [E8, E1]`; the array order was not updated.) -/
def single_push_froms (b : Board) : Nat :=
  let empty_squares := bbNot (b.friendly_pieces ||| b.enemy_pieces)
  match b.active_color with
  | .white => black_pawns_able_to_push b empty_squares
  | .black => white_pawns_able_to_push b empty_squares

/-- The double-push from-set `pseudolegal_moves` actually selects
(same inverted `pawn_data` indexing as `single_push_froms`). -/
def double_push_froms (b : Board) : Nat :=
  let empty_squares := bbNot (b.friendly_pieces ||| b.enemy_pieces)
  match b.active_color with
  | .white => black_pawns_able_to_double_push b empty_squares
  | .black => white_pawns_able_to_double_push b empty_squares

/-- The body of the single-push emission loop for one `from` square:
`to = from + 8 * direction`, promotions expanded on the back rank
(`to.rank() % 7 == 0`).  An off-board target makes
`Square::try_from(..).unwrap()` panic in Rust; modelled as emitting
nothing. -/
def pawn_push_emit (c : Color) (f : Square) : List Move :=
  let ti := (f.val : Int) + 8 * c.direction
  if h : 0 ≤ ti ∧ ti < 64 then
    let t : Square := ⟨ti.toNat, by omega⟩
    if t.val / 8 % 7 = 0 then promos f t else [Move.new f t]
  else []

/-- The body of the double-push emission loop for one `from` square:
`to = from + 16 * direction` (a direct `Square::ALL[..]` index — an
off-board value panics in Rust; modelled as emitting nothing). -/
def pawn_double_emit (c : Color) (f : Square) : List Move :=
  let ti := (f.val : Int) + 16 * c.direction
  if h : 0 ≤ ti ∧ ti < 64 then [Move.new f ⟨ti.toNat, by omega⟩] else []

/-- The body of the pawn-capture emission loop for one `(from, to)` pair:
promotions expanded on the back rank. -/
def pawn_capture_emit (f t : Square) : List Move :=
  if t.val / 8 % 7 = 0 then promos f t else [Move.new f t]

/-- The castling block of `MoveGen::pseudolegal_moves`
(`src/chress/src/move_gen/mod.rs`, lines 288–330): if the king stands on
its start square and that square is not attacked, each side (0 = kingside,
1 = queenside) is emitted iff its right bit is set, its blocker squares
are empty, and no square of `CASTLING_CHECKABLES` is attacked (the inner
`continue 'outer` loop, rendered as `List.all`). -/
def castling_moves (b : Board) (king_square : Square) : List Move :=
  let color := b.active_color
  let attacker_color := color.inverse
  let king_start := KING_STARTING_SQUARES color
  let in_check := square_attacked_by b king_start attacker_color
  if king_square = king_start ∧ in_check = false then
    ([⟨0, by decide⟩, ⟨1, by decide⟩] : List (Fin 2)).flatMap (fun i =>
      if (if i.val = 0 then Flags.kingside b.flags color else Flags.queenside b.flags color) = true ∧
         CASTLING_BLOCKERS color i &&& b.occupied = 0 ∧
         (squaresOf (CASTLING_CHECKABLES color i)).all
           (fun s => !(square_attacked_by b s attacker_color)) = true
      then [Move.new king_start (CASTLING_DESTINATIONS color i)] else [])
  else []

/-- `MoveGen::pseudolegal_moves` (`src/chress/src/move_gen/mod.rs`,
lines 182–347), as the concatenation of the source's emission sites in
their execution order: pawn single pushes, double pushes, captures,
en passant, king moves, castling, knights, rooks, bishops, queens.
Off-board pawn targets (`Square::try_from(..).unwrap()` panics) and a
missing king (`Square::ALL[64]` panics) are modelled by emitting nothing;
neither occurs on a well-formed position. -/
def pseudolegal_moves (b : Board) : List Move :=
  let color := b.active_color
  let friendly_pieces := b.friendly_pieces
  let enemy_pieces := b.enemy_pieces
  let all_pieces := friendly_pieces ||| enemy_pieces
  let singles := (squaresOf (single_push_froms b)).flatMap (pawn_push_emit color)
  let doubles := (squaresOf (double_push_froms b)).flatMap (pawn_double_emit color)
  let captures := (squaresOf (b.bitboard .pawn color)).flatMap (fun f =>
    (squaresOf (PAWN_CAPTURES color f &&& enemy_pieces)).flatMap (pawn_capture_emit f))
  let ep_square := epTargetSq color b.flags
  let can_en_passant := Flags.en_passant_valid b.flags
  let reset_mask := if can_en_passant then 2 ^ 64 - 1 else 0
  let pawns_that_can_take := PAWN_CAPTURES color.inverse ep_square &&& b.bitboard .pawn color
  let ep_moves := (squaresOf (pawns_that_can_take &&& reset_mask)).map (fun f => Move.new f ep_square)
  let king_section :=
    match (List.finRange 64).find? (fun i => (b.bitboard .king color).testBit i.val) with
    | none => []
    | some king_square =>
      let king_moves := (squaresOf (KING_MOVES king_square &&& bbNot friendly_pieces)).map
        (Move.new king_square)
      king_moves ++ castling_moves b king_square
  let knights := (squaresOf (b.bitboard .knight color)).flatMap (fun f =>
    (squaresOf (KNIGHT_MOVES f &&& bbNot friendly_pieces)).map (Move.new f))
  let rooks := (squaresOf (b.bitboard .rook color)).flatMap (fun f =>
    (squaresOf (rook_attacks f all_pieces &&& bbNot friendly_pieces)).map (Move.new f))
  let bishops := (squaresOf (b.bitboard .bishop color)).flatMap (fun f =>
    (squaresOf (bishop_attacks f all_pieces &&& bbNot friendly_pieces)).map (Move.new f))
  let queens := (squaresOf (b.bitboard .queen color)).flatMap (fun f =>
    (squaresOf ((rook_attacks f all_pieces ||| bishop_attacks f all_pieces) &&& bbNot friendly_pieces)).map
      (Move.new f))
  singles ++ doubles ++ captures ++ ep_moves ++ king_section ++ knights ++ rooks ++ bishops ++ queens

/-- `MoveGen::is_legal_move`: make the move on a copy, then test whether
the mover's king square is attacked.  The two `unwrap`/index panics
(empty `from` square; missing king) are modelled as `false`. -/
def is_legal_move (b : Board) (m : Move) : Bool :=
  let current_color := b.active_color
  let attacker_color := current_color.inverse
  match b.make_move m with
  | (b2, some _) =>
    match (List.finRange 64).find? (fun i => (b2.bitboard .king current_color).testBit i.val) with
    | some king_square => !(square_attacked_by b2 king_square attacker_color)
    | none => false
  | (_, none) => false

/-- The `while i < len` / `swap_remove` filtering loop of
`MoveGen::legal_moves` (swap-removing replaces index `i` with the last
element and shrinks the list by one).  The loop terminates because
`len - i` shrinks every iteration; the structural fuel argument (any
value above `len - i` works) stands in for that measure. -/
def legalFilterGo (b : Board) : Nat → List Move → Nat → List Move
| 0, ms, _ => ms
| fuel + 1, ms, i =>
  if h : i < ms.length then
    if is_legal_move b (ms.get ⟨i, h⟩) then legalFilterGo b fuel ms (i + 1)
    else legalFilterGo b fuel
      ((ms.set i (ms.getLast (List.ne_nil_of_length_pos (by omega)))).dropLast) i
  else ms

/-- `MoveGen::legal_moves`. -/
def legal_moves (b : Board) : List Move :=
  legalFilterGo b ((pseudolegal_moves b).length + 1) (pseudolegal_moves b) 0

end MoveGen

/-- `perft` (`src/chress/src/debug/mod.rs`): each root iteration copies the
board, makes the move (`unwrap`; failure modelled as contributing 0) and
recurses. -/
def perft (b : Board) (depth : Nat) : Nat :=
  match depth with
  | 0 => 1
  | d + 1 =>
    (MoveGen.legal_moves b).foldl (fun count mv =>
      count + (match b.make_move mv with
               | (b2, some _) => perft b2 d
               | (_, none) => 0)) 0

/-- One iteration of `divide`'s root-move loop: make the move, count
`perft(depth - 1)`, unmake, and push `(move, count)`.  The two `unwrap`s
cannot fail on legal moves; their panic paths are modelled by keeping the
current state (and count 0). -/
def divideStep (depth : Nat) (st : Board × Nat × List (Move × Nat)) (mv : Move) :
    Board × Nat × List (Move × Nat) :=
  match st.1.make_move mv with
  | (b2, some md) =>
    let count := perft b2 (depth - 1)
    ((b2.unmake_move md).getD b2, st.2.1 + count, st.2.2 ++ [(mv, count)])
  | (bx, none) => (bx, st.2.1, st.2.2 ++ [(mv, 0)])

/-- `divide` (`src/chress/src/debug/mod.rs`): fold `divideStep` over the
legal root moves, returning the total and the per-move counts in
iteration order. -/
def divide (b : Board) (depth : Nat) : Nat × List (Move × Nat) :=
  let fin := (MoveGen.legal_moves b).foldl (divideStep depth) (b, 0, [])
  (fin.2.1, fin.2.2)

/-! ## FEN codec (`Board::fen`, `Board::load_from_fen`) -/

/-- Lowercase FEN character of a piece.  The board module's `piece.rs` is
not under `src/`; the mapping is modelled from the spec (§3, bijective
lowercase chars) and pinned by the `PIECE_CHARS` array of the `Display`
impl in `src/chress/src/board/mod.rs`. -/
def piece_char : Piece → Char
| .knight => 'n'
| .bishop => 'b'
| .rook => 'r'
| .queen => 'q'
| .king => 'k'
| .pawn => 'p'

/-- `Piece::try_from(char)` (case-insensitive table lookup; modelled from
the spec, mirroring the `LOOKUP` table of the in-src top-level
`piece.rs`). -/
def piece_of_char (c : Char) : Option Piece :=
  match c with
  | 'n' => some .knight
  | 'N' => some .knight
  | 'b' => some .bishop
  | 'B' => some .bishop
  | 'r' => some .rook
  | 'R' => some .rook
  | 'q' => some .queen
  | 'Q' => some .queen
  | 'k' => some .king
  | 'K' => some .king
  | 'p' => some .pawn
  | 'P' => some .pawn
  | _ => none

/-- ASCII digit character of a (single-digit) count. -/
def fenDigit (n : Nat) : Char := Char.ofNat (n + 48)

/-- The 64 squares in FEN serialization order: ranks 8 → 1, files a → h. -/
def FEN_ORDER : List Square :=
  (List.finRange 64).map (fun i => ⟨(7 - i.val / 8) * 8 + i.val % 8, by have := i.isLt; omega⟩)

/-- The piece-placement loop of `Board::fen` (lines 312–349).  State is
`(tiles_since_last_piece, output)`.  Mirrors the source exactly: at the
end of each of ranks 8..2 the pending empty-square digit is flushed and a
`/` is pushed; at the end of rank 1 the loop `break`s first, so a pending
digit for trailing empty squares of rank 1 is dropped. -/
def Board.fen_placement (b : Board) : List Char :=
  (FEN_ORDER.foldl (fun (st : Nat × List Char) sq =>
    let step : Nat × List Char :=
      match b.piece_at sq with
      | some piece =>
        let acc1 := if st.1 ≠ 0 then st.2 ++ [fenDigit st.1] else st.2
        let ch := piece_char piece
        -- uppercase iff the square is in black_pieces() (which, by the
        -- inverted accessor naming, is the union of the White bitboards)
        let ch1 := if b.black_pieces &&& sqBB sq ≠ 0 then Char.ofNat (ch.toNat - 32) else ch
        (0, acc1 ++ [ch1])
      | none => (st.1 + 1, st.2)
    if sq.val % 8 = 7 then
      if sq.val / 8 = 0 then step
      else (0, step.2 ++ (if step.1 ≠ 0 then [fenDigit step.1] else []) ++ ['/'])
    else step) (0, [])).2

/-- `Board::fen` (lines 309–395), producing the character list of the FEN
string. -/
def Board.fen (b : Board) : List Char :=
  let color_char : Char := match b.active_color with | .white => 'w' | .black => 'b'
  let rights :=
    (if Flags.white_kingside b.flags then ['K'] else []) ++
    (if Flags.white_queenside b.flags then ['Q'] else []) ++
    (if Flags.black_kingside b.flags then ['k'] else []) ++
    (if Flags.black_queenside b.flags then ['q'] else [])
  let rights1 := if rights = [] then ['-'] else rights
  let ep :=
    match Flags.en_passant_file b.flags with
    | some file => [Char.ofNat (file + 97), fenDigit (b.active_color.inverse.en_passant_rank + 1)]
    | none => ['-']
  b.fen_placement ++ [' '] ++ [color_char] ++ [' '] ++ rights1 ++ [' '] ++ ep ++
    [' '] ++ Nat.toDigits 10 b.halfmoves ++ [' '] ++ Nat.toDigits 10 b.fullmoves

/-- `str::split(' ')`: split at every space, keeping empty pieces. -/
def splitSp : List Char → List (List Char)
| [] => [[]]
| c :: rest =>
  match splitSp rest with
  | [] => [[c]]
  | h :: tl => if c = ' ' then [] :: h :: tl else (c :: h) :: tl

/-- `u32::from_str` on a trimmed field: optional leading `+`, one or more
ASCII digits, value below `2^32`. -/
def parse_u32 (s : List Char) : Option Nat :=
  let s1 := match s with
    | '+' :: rest => rest
    | _ => s
  if s1 = [] then none
  else if s1.all (fun c => decide (48 ≤ c.toNat ∧ c.toNat ≤ 57)) then
    let v := s1.foldl (fun a c => a * 10 + (c.toNat - 48)) 0
    if v < 4294967296 then some v else none
  else none

/-- `Square::try_from(&str)` (`src/chress/src/square.rs`): lowercase the
text, read file from the first char and rank from the second, then bounds
check.  Out-of-range letters/digits (a `usize` underflow panic or
`OutOfRange` in Rust) are modelled as `none`. -/
def square_from_chars (s : List Char) : Option Square :=
  match s with
  | c0 :: c1 :: _ =>
    let file : Int := (c0.toLower.toNat : Int) - 97
    let rank : Int := (c1.toLower.toNat : Int) - 49
    let idx := rank * 8 + file
    if h : 0 ≤ file ∧ 0 ≤ rank ∧ 0 ≤ idx ∧ idx < 64 then some ⟨idx.toNat, by omega⟩ else none
  | _ => none

/-- Number of set bits of a `u64` (`count_ones`). -/
def popcount (n : Nat) : Nat := ((List.range 64).filter (fun i => n.testBit i)).length

/-- The piece-placement parsing loop of `Board::load_from_fen`
(lines 189–218).  Digits `0`–`8` advance the file, `/` moves down a rank,
piece letters place a piece (uppercase = White).  A placement that would
index off the board (a `Square::try_from(..).unwrap()` panic in Rust) and
any other character (`BadPosition`) give `none`. -/
def parse_placement (chars : List Char) : Option (Fin 12 → Nat) :=
  (chars.foldl (fun (st : Option (Int × Int × (Fin 12 → Nat))) c =>
    match st with
    | none => none
    | some (rank, file, ps) =>
      if 48 ≤ c.toNat ∧ c.toNat ≤ 56 then
        some (rank, file + ((c.toNat : Int) - 48), ps)
      else if c = '/' then some (rank - 1, 0, ps)
      else
        match piece_of_char c with
        | some piece =>
          let color := if c.toNat ≤ 90 then Color.white else Color.black
          let idx := rank * 8 + file
          if h : 0 ≤ rank ∧ 0 ≤ file ∧ 0 ≤ idx ∧ idx < 64 then
            let sq : Square := ⟨idx.toNat, by omega⟩
            let bi := Board.bitboard_index piece color
            some (rank, file + 1, setIdx ps bi (ps bi ||| sqBB sq))
          else none
        | none => none) (some (7, 0, fun _ => 0))).map (fun st => st.2.2)

/-- `Board::load_from_fen` (lines 179–307): parse the six space-separated
fields; `none` collapses every `ParseFenError` (and the placement-index
panic).  The validation steps are translated in source order: exactly one
king per color, then (after the active color is known) the side not to
move must not have its king attacked. -/
def Board.load_from_fen (s : List Char) : Option Board :=
  match splitSp s with
  | position :: active_color :: castling_rights :: en_passant :: halfmoves :: fullmoves :: _ => do
    let pieces ← parse_placement position
    if popcount (pieces (Board.bitboard_index .king .white)) = 1 then pure () else none
    if popcount (pieces (Board.bitboard_index .king .black)) = 1 then pure () else none
    let ac ← match active_color with
      | ['w'] => some Color.white
      | ['b'] => some Color.black
      | _ => none
    let board0 : Board :=
      { pieces := pieces, active_color := ac, flags := 0, halfmoves := 0, fullmoves := 1 }
    let enemy_king ← (List.finRange 64).find?
      (fun i => (pieces (Board.bitboard_index .king ac.inverse)).testBit i.val)
    if MoveGen.square_attacked_by board0 enemy_king ac then none else pure ()
    let flags1 ←
      if castling_rights = ['-'] then some 0
      else castling_rights.foldl (fun (st : Option Nat) c =>
        match st with
        | none => none
        | some fl =>
          match c with
          | 'K' => some (fl ||| 1)
          | 'Q' => some (fl ||| 2)
          | 'k' => some (fl ||| 4)
          | 'q' => some (fl ||| 8)
          | _ => none) (some 0)
    let flags2 ←
      if en_passant = ['-'] then some flags1
      else do
        let sq ← square_from_chars en_passant
        some ((flags1 ||| 128) ||| ((sq.val % 8) <<< 4))
    let hm ← parse_u32 halfmoves
    let fm ← parse_u32 fullmoves
    if fm = 0 then none else pure ()
    some { pieces := pieces, active_color := ac, flags := flags2, halfmoves := hm, fullmoves := fm }
  | _ => none

/-- `START_FEN`. -/
def START_FEN : List Char :=
  "rnbqkbnr/pppppppp/8/8/8/8/PPPPPPPP/RNBQKBNR w KQkq - 0 1".toList

/-- The `le` of the `PartialOrd` impl for `Move`
(`src/chress/src/board/move.rs`, lines 156–188): lexicographic over
(from, to, promotion), a missing promotion sorting below a present one,
promotion pieces by their discriminant order. -/
def Move.le (a b : Move) : Bool :=
  if a.fromSq = b.fromSq then
    if a.toSq = b.toSq then
      match a.promotion, b.promotion with
      | some x, some y => decide (x.toNat ≤ y.toNat)
      | some _, none => false
      | none, some _ => true
      | none, none => true
    else decide (a.toSq.val ≤ b.toSq.val)
  else decide (a.fromSq.val ≤ b.fromSq.val)

/-! ## Decode lemmas for the packed move encoding -/

lemma move_encode (f t : Square) (pm : Nat) (hpm : pm < 16) :
    (f.val <<< 10) ||| (t.val <<< 4) ||| pm = 1024 * f.val + 16 * t.val + pm := by
  have ht := t.isLt
  have h1 : (2 : Nat) ^ 4 * t.val + pm < 2 ^ 10 := by norm_num; omega
  calc (f.val <<< 10) ||| (t.val <<< 4) ||| pm
      = (f.val <<< 10) ||| ((t.val <<< 4) ||| pm) := Nat.lor_assoc _ _ _
    _ = 2 ^ 10 * f.val ||| (2 ^ 4 * t.val ||| pm) := by
        rw [Nat.shiftLeft_eq, Nat.shiftLeft_eq, Nat.mul_comm f.val, Nat.mul_comm t.val]
    _ = 2 ^ 10 * f.val ||| (2 ^ 4 * t.val + pm) := by
        rw [← Nat.mul_add_lt_is_or (show pm < 2 ^ 4 by omega) t.val]
    _ = 2 ^ 10 * f.val + (2 ^ 4 * t.val + pm) := by
        rw [← Nat.mul_add_lt_is_or h1 f.val]
    _ = 1024 * f.val + 16 * t.val + pm := by norm_num; omega

lemma move_new_data (f t : Square) : (Move.new f t).data = 1024 * f.val + 16 * t.val := by
  have h := move_encode f t 0 (by omega)
  calc (Move.new f t).data
      = (f.val <<< 10) ||| (t.val <<< 4) ||| 0 := (Nat.or_zero _).symm
    _ = 1024 * f.val + 16 * t.val + 0 := h
    _ = 1024 * f.val + 16 * t.val := by omega

lemma promotion_mask_lt (p : Piece) : p.promotion_mask < 16 :=
  Nat.lt_succ_of_le Nat.and_le_right

lemma move_newp_data (f t : Square) (p : Piece) :
    (Move.new_with_promotion f t p).data = 1024 * f.val + 16 * t.val + p.promotion_mask :=
  move_encode f t p.promotion_mask (promotion_mask_lt p)

lemma data_fromSq (f t : Square) (pm : Nat) (hpm : pm < 16) :
    ((1024 * f.val + 16 * t.val + pm) >>> 10) % 64 = f.val := by
  rw [Nat.shiftRight_eq_div_pow]
  have hf := f.isLt
  have ht := t.isLt
  norm_num
  omega

lemma data_toSq (f t : Square) (pm : Nat) (hpm : pm < 16) :
    ((1024 * f.val + 16 * t.val + pm) >>> 4) &&& 63 = t.val := by
  have h63 : (63 : Nat) = 2 ^ 6 - 1 := by norm_num
  rw [Nat.shiftRight_eq_div_pow, h63, Nat.and_pow_two_sub_one_eq_mod]
  have hf := f.isLt
  have ht := t.isLt
  norm_num
  omega

lemma data_pm (f t : Square) (pm : Nat) (hpm : pm < 16) :
    (1024 * f.val + 16 * t.val + pm) &&& 15 = pm := by
  have h15 : (15 : Nat) = 2 ^ 4 - 1 := by norm_num
  rw [h15, Nat.and_pow_two_sub_one_eq_mod]
  omega

lemma move_new_fromSq (f t : Square) : (Move.new f t).fromSq = f := by
  apply Fin.ext
  show ((Move.new f t).data >>> 10) % 64 = f.val
  rw [move_new_data]
  have := data_fromSq f t 0 (by omega)
  simpa using this

lemma move_new_toSq (f t : Square) : (Move.new f t).toSq = t := by
  apply Fin.ext
  show ((Move.new f t).data >>> 4) &&& 63 = t.val
  rw [move_new_data]
  have := data_toSq f t 0 (by omega)
  simpa using this

lemma move_new_promotion (f t : Square) : (Move.new f t).promotion = none := by
  have h : (Move.new f t).data &&& 15 = 0 := by
    rw [move_new_data]
    have := data_pm f t 0 (by omega)
    simpa using this
  unfold Move.promotion
  rw [h]

lemma move_newp_fromSq (f t : Square) (p : Piece) :
    (Move.new_with_promotion f t p).fromSq = f := by
  apply Fin.ext
  show ((Move.new_with_promotion f t p).data >>> 10) % 64 = f.val
  rw [move_newp_data]
  exact data_fromSq f t _ (promotion_mask_lt p)

lemma move_newp_toSq (f t : Square) (p : Piece) :
    (Move.new_with_promotion f t p).toSq = t := by
  apply Fin.ext
  show ((Move.new_with_promotion f t p).data >>> 4) &&& 63 = t.val
  rw [move_newp_data]
  exact data_toSq f t _ (promotion_mask_lt p)

lemma move_newp_promotion (f t : Square) (p : Piece)
    (hp : p = Piece.knight ∨ p = Piece.bishop ∨ p = Piece.rook ∨ p = Piece.queen) :
    (Move.new_with_promotion f t p).promotion = some p := by
  have h : (Move.new_with_promotion f t p).data &&& 15 = p.promotion_mask := by
    rw [move_newp_data]
    exact data_pm f t _ (promotion_mask_lt p)
  unfold Move.promotion
  rw [h]
  rcases hp with rfl | rfl | rfl | rfl <;> rfl

/-! ## Bit-membership and counting lemmas -/

lemma mem_squaresOf {n : Nat} {s : Square} : s ∈ squaresOf n ↔ n.testBit s.val = true := by
  simp [squaresOf, List.mem_filter, List.mem_finRange]

lemma nodup_squaresOf (n : Nat) : (squaresOf n).Nodup :=
  (List.nodup_finRange 64).filter _

lemma testBit_and_eq_zero {x y : Nat} (h : x &&& y = 0) (i : Nat) :
    ¬(x.testBit i = true ∧ y.testBit i = true) := by
  rintro ⟨hx, hy⟩
  have := Nat.testBit_and x y i
  rw [h, hx, hy] at this
  simp at this

lemma countP_flatMap_list {α : Type} (P : Move → Bool) (g : α → List Move) (l : List α) :
    List.countP P (l.flatMap g) = (l.map (fun x => List.countP P (g x))).sum := by
  induction l with
  | nil => simp
  | cons hd tl ih => simp [List.flatMap_cons, List.countP_append, ih]

lemma countP_flatMap_focus {α : Type} [DecidableEq α] (P : Move → Bool) (g : α → List Move)
    (l : List α) (hnd : l.Nodup) (x0 : α)
    (h0 : ∀ x ∈ l, x ≠ x0 → List.countP P (g x) = 0) :
    List.countP P (l.flatMap g) = if x0 ∈ l then List.countP P (g x0) else 0 := by
  induction l with
  | nil => simp
  | cons hd tl ih =>
    obtain ⟨hhd, hnd2⟩ := List.nodup_cons.mp hnd
    rw [List.flatMap_cons, List.countP_append]
    by_cases hx : hd = x0
    · subst hx
      have htl : List.countP P (tl.flatMap g) = 0 := by
        rw [List.countP_eq_zero]
        intro m hm
        rw [List.mem_flatMap] at hm
        obtain ⟨x, hxtl, hmx⟩ := hm
        have hxne : x ≠ hd := fun he => hhd (he ▸ hxtl)
        have := h0 x (List.mem_cons_of_mem _ hxtl) hxne
        exact List.countP_eq_zero.mp this m hmx
      simp [htl]
    · have ihx := ih hnd2 (fun x hx2 hne => h0 x (List.mem_cons_of_mem _ hx2) hne)
      have hhd0 : List.countP P (g hd) = 0 := h0 hd (List.mem_cons_self _ _) hx
      rw [ihx, hhd0]
      have hmem : x0 ∈ hd :: tl ↔ x0 ∈ tl := by
        constructor
        · intro h
          rcases List.mem_cons.mp h with he | h2
          · exact absurd he.symm hx
          · exact h2
        · exact fun h2 => List.mem_cons_of_mem _ h2
      by_cases hin : x0 ∈ tl <;> simp [hmem, hin]

/-- The move-shape predicate of claim C7: from, to and promotion all
match. -/
def moveMatches (f t : Square) (q : Option Piece) (m : Move) : Bool :=
  decide (m.fromSq = f ∧ m.toSq = t ∧ m.promotion = q)

lemma countP_promos_some (f t : Square) (p : Piece)
    (hp : p = Piece.knight ∨ p = Piece.bishop ∨ p = Piece.rook ∨ p = Piece.queen) :
    List.countP (moveMatches f t (some p)) (promos f t) = 1 := by
  have hk := move_newp_promotion f t Piece.knight (by tauto)
  have hb := move_newp_promotion f t Piece.bishop (by tauto)
  have hr := move_newp_promotion f t Piece.rook (by tauto)
  have hq := move_newp_promotion f t Piece.queen (by tauto)
  rcases hp with rfl | rfl | rfl | rfl <;>
    simp [promos, List.countP_cons, moveMatches, move_newp_fromSq, move_newp_toSq,
      hk, hb, hr, hq]

lemma countP_promos_none (f t : Square) :
    List.countP (moveMatches f t none) (promos f t) = 0 := by
  have hk := move_newp_promotion f t Piece.knight (by tauto)
  have hb := move_newp_promotion f t Piece.bishop (by tauto)
  have hr := move_newp_promotion f t Piece.rook (by tauto)
  have hq := move_newp_promotion f t Piece.queen (by tauto)
  simp [promos, List.countP_cons, moveMatches, move_newp_fromSq, move_newp_toSq,
    hk, hb, hr, hq]

lemma moveMatches_false_of_from {f t : Square} {q : Option Piece} {m : Move}
    (h : m.fromSq ≠ f) : moveMatches f t q m = false := by
  simp only [moveMatches, decide_eq_false_iff_not]
  rintro ⟨h1, -, -⟩
  exact h h1

lemma moveMatches_false_of_to {f t : Square} {q : Option Piece} {m : Move}
    (h : m.toSq ≠ t) : moveMatches f t q m = false := by
  simp only [moveMatches, decide_eq_false_iff_not]
  rintro ⟨-, h2, -⟩
  exact h h2

lemma countP_zero_of_from_ne {f t : Square} {q : Option Piece} (l : List Move)
    (h : ∀ m ∈ l, m.fromSq ≠ f) : List.countP (moveMatches f t q) l = 0 :=
  List.countP_eq_zero.mpr (fun m hm => by simp [moveMatches_false_of_from (h m hm)])

lemma countP_zero_of_to_ne {f t : Square} {q : Option Piece} (l : List Move)
    (h : ∀ m ∈ l, m.toSq ≠ t) : List.countP (moveMatches f t q) l = 0 :=
  List.countP_eq_zero.mpr (fun m hm => by simp [moveMatches_false_of_to (h m hm)])

lemma testBit_false_of_other {b : Board}
    (hdisj : ∀ j k : Fin 12, j ≠ k → b.pieces j &&& b.pieces k = 0) {j k : Fin 12}
    (hne : j ≠ k) {i : Nat} (hj : (b.pieces j).testBit i = true) :
    (b.pieces k).testBit i = false := by
  by_contra hcon
  have hk : (b.pieces k).testBit i = true := by
    revert hcon
    cases h : (b.pieces k).testBit i <;> simp
  exact testBit_and_eq_zero (hdisj j k hne) i ⟨hj, hk⟩

lemma direction_cases (c : Color) : c.direction = 1 ∨ c.direction = -1 := by
  cases c <;> simp [Color.direction, Color.toNat]

lemma single_push_froms_subset (b : Board) (f : Square)
    (h : (MoveGen.single_push_froms b).testBit f.val = true) :
    (b.bitboard .pawn b.active_color.inverse).testBit f.val = true := by
  unfold MoveGen.single_push_froms at h
  cases hc : b.active_color <;> rw [hc] at h <;>
    simp only [MoveGen.black_pawns_able_to_push, MoveGen.white_pawns_able_to_push,
      Nat.testBit_and, Bool.and_eq_true] at h <;>
    simp [hc, Color.inverse, h.2]

lemma double_push_froms_subset (b : Board) (f : Square)
    (h : (MoveGen.double_push_froms b).testBit f.val = true) :
    (b.bitboard .pawn b.active_color.inverse).testBit f.val = true := by
  unfold MoveGen.double_push_froms at h
  cases hc : b.active_color <;> rw [hc] at h <;>
    simp only [MoveGen.black_pawns_able_to_double_push, MoveGen.white_pawns_able_to_double_push,
      MoveGen.black_pawns_able_to_push, MoveGen.white_pawns_able_to_push,
      Nat.testBit_and, Bool.and_eq_true] at h <;>
    simp [hc, Color.inverse, h.2]

lemma pawn_push_emit_shape (c : Color) (f : Square) :
    ∀ m ∈ MoveGen.pawn_push_emit c f,
      m.fromSq = f ∧ ((m.toSq.val : Int) = f.val + 8 * c.direction) := by
  intro m hm
  unfold MoveGen.pawn_push_emit at hm
  by_cases h : 0 ≤ (f.val : Int) + 8 * c.direction ∧ (f.val : Int) + 8 * c.direction < 64
  · rw [dif_pos h] at hm
    by_cases hb : (((f.val : Int) + 8 * c.direction).toNat : Nat) / 8 % 7 = 0
    · rw [if_pos hb] at hm
      simp only [promos, List.mem_cons, List.not_mem_nil, or_false] at hm
      rcases hm with rfl | rfl | rfl | rfl <;>
        exact ⟨move_newp_fromSq _ _ _, by rw [move_newp_toSq]; simp; omega⟩
    · rw [if_neg hb] at hm
      simp only [List.mem_singleton] at hm
      subst hm
      exact ⟨move_new_fromSq _ _, by rw [move_new_toSq]; simp; omega⟩
  · rw [dif_neg h] at hm
    simp at hm

lemma pawn_double_emit_shape (c : Color) (f : Square) :
    ∀ m ∈ MoveGen.pawn_double_emit c f,
      m.fromSq = f ∧ ((m.toSq.val : Int) = f.val + 16 * c.direction) := by
  intro m hm
  unfold MoveGen.pawn_double_emit at hm
  by_cases h : 0 ≤ (f.val : Int) + 16 * c.direction ∧ (f.val : Int) + 16 * c.direction < 64
  · rw [dif_pos h] at hm
    simp only [List.mem_singleton] at hm
    subst hm
    exact ⟨move_new_fromSq _ _, by rw [move_new_toSq]; simp; omega⟩
  · rw [dif_neg h] at hm
    simp at hm

lemma pawn_capture_emit_shape (f t : Square) :
    ∀ m ∈ MoveGen.pawn_capture_emit f t, m.fromSq = f ∧ m.toSq = t := by
  intro m hm
  unfold MoveGen.pawn_capture_emit at hm
  by_cases hb : t.val / 8 % 7 = 0
  · rw [if_pos hb] at hm
    simp only [promos, List.mem_cons, List.not_mem_nil, or_false] at hm
    rcases hm with rfl | rfl | rfl | rfl <;>
      exact ⟨move_newp_fromSq _ _ _, move_newp_toSq _ _ _⟩
  · rw [if_neg hb] at hm
    simp only [List.mem_singleton] at hm
    subst hm
    exact ⟨move_new_fromSq _ _, move_new_toSq _ _⟩

lemma pawn_push_emit_at (c : Color) (f t : Square)
    (htgt : (t.val : Int) = f.val + 8 * c.direction) (hback : t.val / 8 % 7 = 0) :
    MoveGen.pawn_push_emit c f = promos f t := by
  unfold MoveGen.pawn_push_emit
  have hlt := t.isLt
  have h : 0 ≤ (f.val : Int) + 8 * c.direction ∧ (f.val : Int) + 8 * c.direction < 64 := by
    omega
  rw [dif_pos h]
  have hX : (((f.val : Int) + 8 * c.direction).toNat : Nat) = t.val := by omega
  simp only [hX, Fin.eta]
  rw [if_pos hback]

lemma pawn_capture_emit_at (f t : Square) (hback : t.val / 8 % 7 = 0) :
    MoveGen.pawn_capture_emit f t = promos f t := by
  unfold MoveGen.pawn_capture_emit
  rw [if_pos hback]

lemma mem_ite_singleton {c : Prop} [Decidable c] {a m : Move}
    (h : m ∈ (if c then [a] else ([] : List Move))) : m = a := by
  split at h
  · exact List.mem_singleton.mp h
  · simp at h

lemma castling_moves_shape (b : Board) (k : Square) :
    ∀ m ∈ MoveGen.castling_moves b k,
      m.fromSq = KING_STARTING_SQUARES b.active_color ∧
      k = KING_STARTING_SQUARES b.active_color := by
  intro m hm
  unfold MoveGen.castling_moves at hm
  by_cases h : k = KING_STARTING_SQUARES b.active_color ∧
      MoveGen.square_attacked_by b (KING_STARTING_SQUARES b.active_color) b.active_color.inverse = false
  · rw [if_pos h] at hm
    rw [List.mem_flatMap] at hm
    obtain ⟨i, -, hmi⟩ := hm
    have hmem := mem_ite_singleton hmi
    subst hmem
    exact ⟨move_new_fromSq _ _, h.1⟩
  · rw [if_neg h] at hm
    simp at hm

lemma ep_target_rank_ne (c : Color) (fl : Nat) : (epTargetSq c fl).val / 8 % 7 ≠ 0 := by
  have hfile : Flags.en_passant_file_unchecked fl < 8 := by
    unfold Flags.en_passant_file_unchecked
    have h : fl &&& 112 ≤ 112 := Nat.and_le_right
    rw [Nat.shiftRight_eq_div_pow]
    omega
  unfold epTargetSq
  cases c <;> simp [Color.inverse, Color.en_passant_rank, Color.toNat] <;> omega

/-- A piece-loop segment of `pseudolegal_moves` contributes nothing to the
count at a from-square `f` whose bit is clear in the segment's source
bitboard. -/
lemma countP_zero_from_bb {f t : Square} {q : Option Piece} {n : Nat}
    (hn : n.testBit f.val = false) (targets : Square → Nat) :
    List.countP (moveMatches f t q)
      ((squaresOf n).flatMap (fun x => (squaresOf (targets x)).map (Move.new x))) = 0 := by
  apply List.countP_eq_zero.mpr
  intro m hm
  rw [List.mem_flatMap] at hm
  obtain ⟨x, hx, hmx⟩ := hm
  rw [mem_squaresOf] at hx
  rw [List.mem_map] at hmx
  obtain ⟨t2, -, rfl⟩ := hmx
  rw [Bool.not_eq_true]
  apply moveMatches_false_of_from
  rw [move_new_fromSq]
  intro he
  rw [he, hn] at hx
  exact Bool.noConfusion hx

/-- Master counting lemma for C7: when `f` holds the moving pawn of a
single push (per the generator's own `single_push_froms` set) or of a
pawn capture, and the destination `t` is a back-rank square, the whole of
`pseudolegal_moves` contains, among moves from `f` to `t`, exactly the
four promotion moves `promos f t`, counted by `(from, to, promotion)`
match.  Requires pairwise-disjoint piece bitboards (true of every real
position). -/
lemma pseudolegal_promo_count (b : Board) (f t : Square) (q : Option Piece)
    (hdisj : ∀ j k : Fin 12, j ≠ k → b.pieces j &&& b.pieces k = 0)
    (ht : ((MoveGen.single_push_froms b).testBit f.val = true ∧
             (t.val : Int) = f.val + 8 * b.active_color.direction) ∨
          ((b.bitboard Piece.pawn b.active_color).testBit f.val = true ∧
             (PAWN_CAPTURES b.active_color f &&& b.enemy_pieces).testBit t.val = true))
    (hback : t.val / 8 % 7 = 0) :
    List.countP (moveMatches f t q) (MoveGen.pseudolegal_moves b) =
      List.countP (moveMatches f t q) (promos f t) := by
  have hfPawn : ∃ cf : Color, (b.bitboard Piece.pawn cf).testBit f.val = true := by
    rcases ht with ⟨h1, -⟩ | ⟨h1, -⟩
    · exact ⟨b.active_color.inverse, single_push_froms_subset b f h1⟩
    · exact ⟨b.active_color, h1⟩
  have hfNot : ∀ (X : Piece) (c2 : Color), X ≠ Piece.pawn →
      (b.bitboard X c2).testBit f.val = false := by
    intro X c2 hX
    obtain ⟨cf, hcf⟩ := hfPawn
    refine testBit_false_of_other hdisj ?_ hcf
    cases X <;> cases c2 <;> cases cf <;> first
      | exact absurd rfl hX
      | decide
  have hep : List.countP (moveMatches f t q)
      (List.map (fun x => Move.new x (epTargetSq b.active_color b.flags))
        (squaresOf
          (PAWN_CAPTURES b.active_color.inverse (epTargetSq b.active_color b.flags) &&&
              b.bitboard Piece.pawn b.active_color &&&
            if Flags.en_passant_valid b.flags = true then 2 ^ 64 - 1 else 0))) = 0 := by
    apply countP_zero_of_to_ne
    intro m hm
    rw [List.mem_map] at hm
    obtain ⟨x, -, rfl⟩ := hm
    rw [move_new_toSq]
    intro he
    exact ep_target_rank_ne b.active_color b.flags (by rw [he]; exact hback)
  have hknights : List.countP (moveMatches f t q)
      ((squaresOf (b.bitboard Piece.knight b.active_color)).flatMap (fun x =>
        (squaresOf (KNIGHT_MOVES x &&& bbNot b.friendly_pieces)).map (Move.new x))) = 0 :=
    countP_zero_from_bb (hfNot Piece.knight b.active_color (by decide)) _
  have hrooks : List.countP (moveMatches f t q)
      ((squaresOf (b.bitboard Piece.rook b.active_color)).flatMap (fun x =>
        (squaresOf (MoveGen.rook_attacks x (b.friendly_pieces ||| b.enemy_pieces) &&&
          bbNot b.friendly_pieces)).map (Move.new x))) = 0 :=
    countP_zero_from_bb (hfNot Piece.rook b.active_color (by decide)) _
  have hbishops : List.countP (moveMatches f t q)
      ((squaresOf (b.bitboard Piece.bishop b.active_color)).flatMap (fun x =>
        (squaresOf (MoveGen.bishop_attacks x (b.friendly_pieces ||| b.enemy_pieces) &&&
          bbNot b.friendly_pieces)).map (Move.new x))) = 0 :=
    countP_zero_from_bb (hfNot Piece.bishop b.active_color (by decide)) _
  have hqueens : List.countP (moveMatches f t q)
      ((squaresOf (b.bitboard Piece.queen b.active_color)).flatMap (fun x =>
        (squaresOf ((MoveGen.rook_attacks x (b.friendly_pieces ||| b.enemy_pieces) |||
            MoveGen.bishop_attacks x (b.friendly_pieces ||| b.enemy_pieces)) &&&
          bbNot b.friendly_pieces)).map (Move.new x))) = 0 :=
    countP_zero_from_bb (hfNot Piece.queen b.active_color (by decide)) _
  rcases ht with hA | hB
  · have hA2 := hA.2
    have hfAct : (b.bitboard Piece.pawn b.active_color).testBit f.val = false := by
      refine testBit_false_of_other hdisj ?_ (single_push_froms_subset b f hA.1)
      cases b.active_color <;> decide
    have h0 : ∀ x ∈ squaresOf (MoveGen.single_push_froms b), x ≠ f →
        List.countP (moveMatches f t q) (MoveGen.pawn_push_emit b.active_color x) = 0 := by
      intro x hx hne
      apply countP_zero_of_from_ne
      intro m hm
      rw [(pawn_push_emit_shape b.active_color x m hm).1]
      exact hne
    have hsingles : List.countP (moveMatches f t q)
        ((squaresOf (MoveGen.single_push_froms b)).flatMap
          (MoveGen.pawn_push_emit b.active_color)) =
        List.countP (moveMatches f t q) (promos f t) := by
      rw [countP_flatMap_focus (moveMatches f t q) (MoveGen.pawn_push_emit b.active_color)
        (squaresOf (MoveGen.single_push_froms b)) (nodup_squaresOf _) f h0]
      rw [if_pos (mem_squaresOf.mpr hA.1),
        pawn_push_emit_at b.active_color f t hA.2 hback]
    have hdoubles : List.countP (moveMatches f t q)
        ((squaresOf (MoveGen.double_push_froms b)).flatMap
          (MoveGen.pawn_double_emit b.active_color)) = 0 := by
      apply List.countP_eq_zero.mpr
      intro m hm
      rw [List.mem_flatMap] at hm
      obtain ⟨x, hx, hmx⟩ := hm
      obtain ⟨hfrom, hto⟩ := pawn_double_emit_shape b.active_color x m hmx
      by_cases hxf : x = f
      · subst hxf
        rw [Bool.not_eq_true]
        apply moveMatches_false_of_to
        intro he
        rw [he] at hto
        rcases direction_cases b.active_color with hd | hd <;> rw [hd] at hto hA2 <;> omega
      · rw [Bool.not_eq_true]
        apply moveMatches_false_of_from
        rw [hfrom]
        exact hxf
    have hcaptures : List.countP (moveMatches f t q)
        ((squaresOf (b.bitboard Piece.pawn b.active_color)).flatMap (fun x =>
          (squaresOf (PAWN_CAPTURES b.active_color x &&& b.enemy_pieces)).flatMap
            (MoveGen.pawn_capture_emit x))) = 0 := by
      apply List.countP_eq_zero.mpr
      intro m hm
      rw [List.mem_flatMap] at hm
      obtain ⟨x, hx, hmx⟩ := hm
      rw [mem_squaresOf] at hx
      rw [List.mem_flatMap] at hmx
      obtain ⟨t2, -, hmt⟩ := hmx
      rw [Bool.not_eq_true]
      apply moveMatches_false_of_from
      rw [(pawn_capture_emit_shape x t2 m hmt).1]
      intro he
      rw [he, hfAct] at hx
      exact Bool.noConfusion hx
    simp only [MoveGen.pseudolegal_moves, List.countP_append]
    cases hk : List.find? (fun i => (b.bitboard Piece.king b.active_color).testBit i.val)
        (List.finRange 64) with
    | none =>
      simp only [hsingles, hdoubles, hcaptures, hep, hknights, hrooks, hbishops, hqueens,
        List.countP_nil]
      omega
    | some k =>
      have hkbit : (b.bitboard Piece.king b.active_color).testBit k.val = true := by
        have h := List.find?_some hk
        simpa using h
      have hkne : k ≠ f := by
        intro he
        rw [he, hfNot Piece.king b.active_color (by decide)] at hkbit
        exact Bool.noConfusion hkbit
      have hkm : List.countP (moveMatches f t q)
          (List.map (Move.new k) (squaresOf (KING_MOVES k &&& bbNot b.friendly_pieces))) = 0 := by
        apply countP_zero_of_from_ne
        intro m hm
        rw [List.mem_map] at hm
        obtain ⟨t2, -, rfl⟩ := hm
        rw [move_new_fromSq]
        exact hkne
      have hcast : List.countP (moveMatches f t q) (MoveGen.castling_moves b k) = 0 := by
        apply countP_zero_of_from_ne
        intro m hm
        obtain ⟨hfrom, hkstart⟩ := castling_moves_shape b k m hm
        rw [hfrom, ← hkstart]
        exact hkne
      simp only [List.countP_append, hsingles, hdoubles, hcaptures, hep, hknights, hrooks,
        hbishops, hqueens, hkm, hcast]
      omega
  · have hfInact : (b.bitboard Piece.pawn b.active_color.inverse).testBit f.val = false := by
      refine testBit_false_of_other hdisj ?_ hB.1
      cases b.active_color <;> decide
    have hsingles : List.countP (moveMatches f t q)
        ((squaresOf (MoveGen.single_push_froms b)).flatMap
          (MoveGen.pawn_push_emit b.active_color)) = 0 := by
      apply List.countP_eq_zero.mpr
      intro m hm
      rw [List.mem_flatMap] at hm
      obtain ⟨x, hx, hmx⟩ := hm
      rw [mem_squaresOf] at hx
      have hxin := single_push_froms_subset b x hx
      rw [Bool.not_eq_true]
      apply moveMatches_false_of_from
      rw [(pawn_push_emit_shape b.active_color x m hmx).1]
      intro he
      rw [he, hfInact] at hxin
      exact Bool.noConfusion hxin
    have hdoubles : List.countP (moveMatches f t q)
        ((squaresOf (MoveGen.double_push_froms b)).flatMap
          (MoveGen.pawn_double_emit b.active_color)) = 0 := by
      apply List.countP_eq_zero.mpr
      intro m hm
      rw [List.mem_flatMap] at hm
      obtain ⟨x, hx, hmx⟩ := hm
      rw [mem_squaresOf] at hx
      have hxin := double_push_froms_subset b x hx
      rw [Bool.not_eq_true]
      apply moveMatches_false_of_from
      rw [(pawn_double_emit_shape b.active_color x m hmx).1]
      intro he
      rw [he, hfInact] at hxin
      exact Bool.noConfusion hxin
    have h0 : ∀ x ∈ squaresOf (b.bitboard Piece.pawn b.active_color), x ≠ f →
        List.countP (moveMatches f t q)
          ((squaresOf (PAWN_CAPTURES b.active_color x &&& b.enemy_pieces)).flatMap
            (MoveGen.pawn_capture_emit x)) = 0 := by
      intro x hx hne
      apply List.countP_eq_zero.mpr
      intro m hm
      rw [List.mem_flatMap] at hm
      obtain ⟨t2, -, hmt⟩ := hm
      rw [Bool.not_eq_true]
      apply moveMatches_false_of_from
      rw [(pawn_capture_emit_shape x t2 m hmt).1]
      exact hne
    have h1 : ∀ t2 ∈ squaresOf (PAWN_CAPTURES b.active_color f &&& b.enemy_pieces), t2 ≠ t →
        List.countP (moveMatches f t q) (MoveGen.pawn_capture_emit f t2) = 0 := by
      intro t2 h2 hne
      apply countP_zero_of_to_ne
      intro m hm
      rw [(pawn_capture_emit_shape f t2 m hm).2]
      exact hne
    have hcaptures : List.countP (moveMatches f t q)
        ((squaresOf (b.bitboard Piece.pawn b.active_color)).flatMap (fun x =>
          (squaresOf (PAWN_CAPTURES b.active_color x &&& b.enemy_pieces)).flatMap
            (MoveGen.pawn_capture_emit x))) =
        List.countP (moveMatches f t q) (promos f t) := by
      rw [countP_flatMap_focus (moveMatches f t q) _
        (squaresOf (b.bitboard Piece.pawn b.active_color)) (nodup_squaresOf _) f h0]
      rw [if_pos (mem_squaresOf.mpr hB.1)]
      rw [countP_flatMap_focus (moveMatches f t q) (MoveGen.pawn_capture_emit f)
        (squaresOf (PAWN_CAPTURES b.active_color f &&& b.enemy_pieces))
        (nodup_squaresOf _) t h1]
      rw [if_pos (mem_squaresOf.mpr hB.2), pawn_capture_emit_at f t hback]
    simp only [MoveGen.pseudolegal_moves, List.countP_append]
    cases hk : List.find? (fun i => (b.bitboard Piece.king b.active_color).testBit i.val)
        (List.finRange 64) with
    | none =>
      simp only [hsingles, hdoubles, hcaptures, hep, hknights, hrooks, hbishops, hqueens,
        List.countP_nil]
      omega
    | some k =>
      have hkbit : (b.bitboard Piece.king b.active_color).testBit k.val = true := by
        have h := List.find?_some hk
        simpa using h
      have hkne : k ≠ f := by
        intro he
        rw [he, hfNot Piece.king b.active_color (by decide)] at hkbit
        exact Bool.noConfusion hkbit
      have hkm : List.countP (moveMatches f t q)
          (List.map (Move.new k) (squaresOf (KING_MOVES k &&& bbNot b.friendly_pieces))) = 0 := by
        apply countP_zero_of_from_ne
        intro m hm
        rw [List.mem_map] at hm
        obtain ⟨t2, -, rfl⟩ := hm
        rw [move_new_fromSq]
        exact hkne
      have hcast : List.countP (moveMatches f t q) (MoveGen.castling_moves b k) = 0 := by
        apply countP_zero_of_from_ne
        intro m hm
        obtain ⟨hfrom, hkstart⟩ := castling_moves_shape b k m hm
        rw [hfrom, ← hkstart]
        exact hkne
      simp only [List.countP_append, hsingles, hdoubles, hcaptures, hep, hknights, hrooks,
        hbishops, hqueens, hkm, hcast]
      omega

/-! ## Bit algebra and `piece_at` characterisation for the make/unmake
round trip (C1) -/

lemma testBit_high_false {x : Nat} (hx : x < 2 ^ 64) {i : Nat} (hi : 64 ≤ i) :
    x.testBit i = false :=
  Nat.testBit_lt_two_pow (lt_of_lt_of_le hx (Nat.pow_le_pow_right (by omega) hi))

lemma testBit_sqBB (s : Square) (i : Nat) :
    (sqBB s).testBit i = decide (s.val = i) := by
  unfold sqBB
  rw [Nat.one_shiftLeft, Nat.testBit_two_pow]

lemma sqBB_lt (s : Square) : sqBB s < 2 ^ 64 := by
  unfold sqBB
  rw [Nat.one_shiftLeft]
  exact Nat.pow_lt_pow_right (by omega) s.isLt

/-- Removing a set bit and putting it back is the identity. -/
lemma bb_remove_add {x : Nat} (hx : x < 2 ^ 64) {s : Square} (hs : x.testBit s.val = true) :
    (x &&& bbNot (sqBB s)) ||| sqBB s = x := by
  apply Nat.eq_of_testBit_eq
  intro i
  by_cases hi : i < 64
  · simp only [Nat.testBit_or, Nat.testBit_and, bbNot, Nat.testBit_xor,
      Nat.testBit_two_pow_sub_one, testBit_sqBB]
    by_cases hsi : s.val = i
    · subst hsi
      simp [hs, hi]
    · simp [hsi, hi]
  · have h1 : x.testBit i = false := testBit_high_false hx (by omega)
    have h2 : (sqBB s).testBit i = false := by
      rw [testBit_sqBB]
      have := s.isLt
      simp
      omega
    simp [Nat.testBit_or, Nat.testBit_and, h1, h2]

/-- Setting a clear bit and clearing it again is the identity. -/
lemma bb_add_remove {x : Nat} (hx : x < 2 ^ 64) {s : Square} (hs : x.testBit s.val = false) :
    (x ||| sqBB s) &&& bbNot (sqBB s) = x := by
  apply Nat.eq_of_testBit_eq
  intro i
  by_cases hi : i < 64
  · simp only [Nat.testBit_or, Nat.testBit_and, bbNot, Nat.testBit_xor,
      Nat.testBit_two_pow_sub_one, testBit_sqBB]
    by_cases hsi : s.val = i
    · subst hsi
      simp [hs, hi]
    · simp [hsi, hi]
  · have h1 : x.testBit i = false := testBit_high_false hx (by omega)
    have h2 : (sqBB s).testBit i = false := by
      rw [testBit_sqBB]
      have := s.isLt
      simp
      omega
    simp [Nat.testBit_or, Nat.testBit_and, h1, h2]

/-- Clearing a clear bit is the identity. -/
lemma bb_and_not_noop {x : Nat} (hx : x < 2 ^ 64) {s : Square} (hs : x.testBit s.val = false) :
    x &&& bbNot (sqBB s) = x := by
  apply Nat.eq_of_testBit_eq
  intro i
  by_cases hi : i < 64
  · simp only [Nat.testBit_and, bbNot, Nat.testBit_xor,
      Nat.testBit_two_pow_sub_one, testBit_sqBB]
    by_cases hsi : s.val = i
    · subst hsi
      simp [hs, hi]
    · simp [hsi, hi]
  · have h1 : x.testBit i = false := testBit_high_false hx (by omega)
    simp [Nat.testBit_and, h1]

/-- The from/to bit shuffle of a successful `make_move` followed by the
inverse shuffle of `unmake_move` restores the moved piece's bitboard. -/
lemma bb_move_unmove {x : Nat} (hx : x < 2 ^ 64) {f t : Square} (hf : x.testBit f.val = true)
    (htb : x.testBit t.val = false) (hft : f ≠ t) :
    ((((x &&& bbNot (sqBB f)) ||| sqBB t) ||| sqBB f) &&& bbNot (sqBB t)) = x := by
  have hvft : f.val ≠ t.val := fun h => hft (Fin.ext h)
  have hvtf : t.val ≠ f.val := Ne.symm hvft
  apply Nat.eq_of_testBit_eq
  intro i
  by_cases hi : i < 64
  · simp only [Nat.testBit_or, Nat.testBit_and, bbNot, Nat.testBit_xor,
      Nat.testBit_two_pow_sub_one, testBit_sqBB]
    by_cases hfi : f.val = i
    · subst hfi
      simp [hf, hi, hvtf]
    · by_cases hti : t.val = i
      · subst hti
        simp [htb, hi, hfi]
      · simp [hfi, hti, hi]
  · have h1 : x.testBit i = false := testBit_high_false hx (by omega)
    have h2 : (sqBB f).testBit i = false := by
      rw [testBit_sqBB]
      have := f.isLt
      simp
      omega
    have h3 : (sqBB t).testBit i = false := by
      rw [testBit_sqBB]
      have := t.isLt
      simp
      omega
    simp [Nat.testBit_or, Nat.testBit_and, h1, h2, h3]

lemma testBit_and_not_of_false {x : Nat} {s : Square} {i : Nat} (h : x.testBit i = false) :
    (x &&& bbNot (sqBB s)).testBit i = false := by
  rw [Nat.testBit_and, h]
  simp

lemma testBit_or_sqBB_of_ne {x : Nat} {s : Square} {i : Nat} (h : x.testBit i = false)
    (hne : s.val ≠ i) : (x ||| sqBB s).testBit i = false := by
  rw [Nat.testBit_or, h, testBit_sqBB]
  simp [hne]

/-- A single-bit intersection test, as `piece_at` performs it. -/
lemma and_sqBB (x : Nat) (sq : Square) :
    x &&& sqBB sq = if x.testBit sq.val = true then sqBB sq else 0 := by
  apply Nat.eq_of_testBit_eq
  intro i
  rw [Nat.testBit_and, testBit_sqBB]
  by_cases h : sq.val = i
  · subst h
    cases hx : x.testBit sq.val <;> simp [hx, testBit_sqBB]
  · cases hx : x.testBit sq.val <;> simp [h, hx, testBit_sqBB]

lemma and_sqBB_ne_zero (x : Nat) (sq : Square) :
    (x &&& sqBB sq ≠ 0) ↔ x.testBit sq.val = true := by
  rw [and_sqBB]
  have hpos : sqBB sq ≠ 0 := by
    unfold sqBB
    rw [Nat.one_shiftLeft]
    have := Nat.two_pow_pos sq.val
    omega
  cases hx : x.testBit sq.val <;> simp [hx, hpos]

/-- `piece_at` finds exactly the piece whose bitboard holds the square,
provided every other bitboard is clear there. -/
lemma piece_at_exact (b : Board) (sq : Square) (P : Piece) (c : Color)
    (h1 : (b.pieces (Board.bitboard_index P c)).testBit sq.val = true)
    (h2 : ∀ j : Fin 12, j ≠ Board.bitboard_index P c → (b.pieces j).testBit sq.val = false) :
    b.piece_at sq = some P := by
  have key : ∀ j1 j2 : Fin 12,
      ((b.pieces j1 ||| b.pieces j2) &&& sqBB sq ≠ 0) ↔
        (j1 = Board.bitboard_index P c ∨ j2 = Board.bitboard_index P c) := by
    intro j1 j2
    rw [and_sqBB_ne_zero, Nat.testBit_or]
    constructor
    · intro h
      by_contra hcon
      push_neg at hcon
      rw [h2 j1 hcon.1, h2 j2 hcon.2] at h
      exact Bool.noConfusion h
    · rintro (rfl | rfl)
      · rw [h1]
        simp
      · rw [h1]
        simp
  simp only [Board.piece_at]
  rw [if_congr (key 0 6) rfl rfl, if_congr (key 1 7) rfl rfl, if_congr (key 2 8) rfl rfl,
      if_congr (key 3 9) rfl rfl, if_congr (key 4 10) rfl rfl, if_congr (key 5 11) rfl rfl]
  cases P <;> cases c <;> decide

/-- `piece_at` of a square clear in all twelve bitboards is `none`. -/
lemma piece_at_none (b : Board) (sq : Square)
    (h : ∀ j : Fin 12, (b.pieces j).testBit sq.val = false) :
    b.piece_at sq = none := by
  have key : ∀ j1 j2 : Fin 12, ¬((b.pieces j1 ||| b.pieces j2) &&& sqBB sq ≠ 0) := by
    intro j1 j2
    rw [and_sqBB_ne_zero, Nat.testBit_or, h j1, h j2]
    simp
  simp only [Board.piece_at]
  rw [if_neg (key 0 6), if_neg (key 1 7), if_neg (key 2 8), if_neg (key 3 9),
      if_neg (key 4 10), if_neg (key 5 11)]

lemma rook_mask_not_self : ∀ t : Square, (ROOK_CASTLING_MOVEMASKS t).testBit t.val = false := by
  decide

lemma and_255 {x : Nat} (hx : x < 256) : x &&& 255 = x := by
  have h : (255 : Nat) = 2 ^ 8 - 1 := by norm_num
  rw [h, Nat.and_pow_two_sub_one_eq_mod]
  omega

/-! ## Make/unmake round trip (C1): stage decomposition of the move pipeline -/


/-- The flags-encoded en-passant condition that `make_move` and
`unmake_move` both test for the side `c` to move with target `t`: the
valid bit is set and the encoded target square is `t`. -/
def epCondition (c : Color) (fl : Nat) (t : Square) : Prop :=
  Flags.en_passant_valid fl = true ∧
    1 <<< (c.inverse.en_passant_rank * 8 + Flags.en_passant_file_unchecked fl) = sqBB t

instance (c : Color) (fl : Nat) (t : Square) : Decidable (epCondition c fl t) := by
  unfold epCondition
  infer_instance

lemma epMatch_iff (fl : Nat) (c : Color) (t : Square) :
    ((match Flags.en_passant_file fl with
      | some file => 1 <<< (c.inverse.en_passant_rank * 8 + file) == sqBB t
      | none => false) = true) ↔ epCondition c fl t := by
  unfold epCondition Flags.en_passant_file
  by_cases hv : Flags.en_passant_valid fl = true
  · rw [if_pos hv]
    simp [hv, Flags.en_passant_file_unchecked]
  · rw [if_neg hv]
    simp [hv]

lemma setIdx_apply (g : Fin 12 → Nat) (i : Fin 12) (v : Nat) (j : Fin 12) :
    setIdx g i v j = if j = i then v else g j := rfl

lemma setIdx_same (g : Fin 12 → Nat) (i : Fin 12) (v : Nat) : setIdx g i v i = v := by
  unfold setIdx
  simp

lemma setIdx_other (g : Fin 12 → Nat) (i : Fin 12) (v : Nat) {j : Fin 12} (h : j ≠ i) :
    setIdx g i v j = g j := by
  unfold setIdx
  simp [h]

lemma setIdx_setIdx (g : Fin 12 → Nat) (i : Fin 12) (v w : Nat) :
    setIdx (setIdx g i v) i w = setIdx g i w := by
  funext j
  unfold setIdx
  by_cases h : j = i <;> simp [h]

lemma setIdx_id (g : Fin 12 → Nat) (i : Fin 12) : setIdx g i (g i) = g := by
  funext j
  unfold setIdx
  by_cases h : j = i <;> simp [h]

lemma color_inverse_inverse (c : Color) : c.inverse.inverse = c := by
  cases c <;> rfl

lemma color_toNat_le_one (c : Color) : c.toNat ≤ 1 := by
  cases c <;> decide

lemma bitboard_index_injective (c : Color) {p q : Piece}
    (h : Board.bitboard_index p c = Board.bitboard_index q c) : p = q := by
  cases c <;> cases p <;> cases q <;> first | rfl | exact absurd h (by decide)

lemma bitboard_index_ne_piece {p q : Piece} (h : p ≠ q) (c : Color) :
    Board.bitboard_index p c ≠ Board.bitboard_index q c :=
  fun he => h (bitboard_index_injective c he)

lemma bitboard_index_color_ne (p q : Piece) (c : Color) :
    Board.bitboard_index p c ≠ Board.bitboard_index q c.inverse := by
  cases c <;> cases p <;> cases q <;> decide

lemma promotion_piece_cases (m : Move) (pp : Piece) (h : m.promotion = some pp) :
    pp = Piece.knight ∨ pp = Piece.bishop ∨ pp = Piece.rook ∨ pp = Piece.queen := by
  unfold Move.promotion at h
  split at h <;> simp_all

/-- The piece-bitboard pipeline of the tail of `make_move` (rook castling
xor, removal at `from`, promotion-aware addition at `to`, capture removal
at `to`), as a function of the stage-output bitboard array. -/
def makeTailPieces (g : Fin 12 → Nat) (m : Move) (moved : Piece) (color : Color)
    (cap : Option Piece) : Fin 12 → Nat :=
  let f := m.fromSq
  let t := m.toSq
  let rookIdx := Board.bitboard_index Piece.rook color
  let g1 := setIdx g rookIdx (g rookIdx ^^^
    (if moved = Piece.king ∧ Nat.dist (f.val % 8) (t.val % 8) = 2
     then ROOK_CASTLING_MOVEMASKS t else 0))
  let movedIdx := Board.bitboard_index moved color
  let g2 := setIdx g1 movedIdx (g1 movedIdx &&& bbNot (sqBB f))
  let g3 :=
    match m.promotion with
    | some pp => setIdx g2 (Board.bitboard_index pp color)
        (g2 (Board.bitboard_index pp color) ||| sqBB t)
    | none => setIdx g2 movedIdx (g2 movedIdx ||| sqBB t)
  match cap with
  | some cp => setIdx g3 (Board.bitboard_index cp color.inverse)
      (g3 (Board.bitboard_index cp color.inverse) &&& bbNot (sqBB t))
  | none => g3

/-- The tail of `make_move` common to all four special-move branches
(everything from the king castling-rights check to the fullmove
increment), abstracted over the stage-output board `s` and capture
snapshot `cap`.  The `make_move_eq_*` lemmas prove `Board.make_move`
equal to `makeTail` of the four possible stage outputs. -/
def makeTail (s : Board) (m : Move) (moved : Piece) (color : Color)
    (cap : Option Piece) : Board :=
  { pieces := makeTailPieces s.pieces m moved color cap,
    active_color := color.inverse,
    flags := ((s.flags &&& f8Not (if moved = Piece.king then 3 <<< (color.toNat * 2) else 0)) &&&
        (CASTLING_RIGHTS_FLAGS m.fromSq ||| (if moved = Piece.rook then 0 else 255))) &&&
      CASTLING_RIGHTS_FLAGS m.toSq,
    halfmoves := s.halfmoves,
    fullmoves := (s.fullmoves + color.inverse.toNat) % 4294967296 }

lemma make_move_eq_nonpawn (b : Board) (m : Move) (P : Piece)
    (hPat : b.piece_at m.fromSq = some P) (hPp : P ≠ Piece.pawn) :
    b.make_move m =
      (makeTail { b with halfmoves := (b.halfmoves + 1) % 4294967296,
                         flags := b.flags &&& f8Not 128 } m P b.active_color (b.piece_at m.toSq),
       some ⟨m, b.piece_at m.toSq, b.flags, b.halfmoves⟩) := by
  rcases hcc : b.piece_at m.toSq with - | C <;> rcases hpp : m.promotion with - | pp <;>
    simp only [Board.make_move, makeTail, makeTailPieces, hPat, hcc, hpp, if_neg hPp,
      Board.remove_piece, Board.add_piece]

lemma make_move_eq_double (b : Board) (m : Move)
    (hPat : b.piece_at m.fromSq = some Piece.pawn)
    (hdbl : Nat.dist (m.fromSq.val / 8) (m.toSq.val / 8) = 2) :
    b.make_move m =
      (makeTail { b with halfmoves := 0,
                         flags := (b.flags &&& f8Not 112) ||| (128 ||| (m.fromSq.val % 8) <<< 4) }
         m Piece.pawn b.active_color (b.piece_at m.toSq),
       some ⟨m, b.piece_at m.toSq, b.flags, b.halfmoves⟩) := by
  rcases hcc : b.piece_at m.toSq with - | C <;> rcases hpp : m.promotion with - | pp <;>
    simp only [Board.make_move, makeTail, makeTailPieces, hPat, hcc, hpp, hdbl,
      eq_self_iff_true, if_true, Board.remove_piece, Board.add_piece]

lemma make_move_eq_plainpawn (b : Board) (m : Move)
    (hPat : b.piece_at m.fromSq = some Piece.pawn)
    (hflags : b.flags < 256)
    (hdbl : Nat.dist (m.fromSq.val / 8) (m.toSq.val / 8) ≠ 2)
    (hepc : ¬ epCondition b.active_color b.flags m.toSq) :
    b.make_move m =
      (makeTail { b with halfmoves := 0, flags := b.flags &&& f8Not 128 }
         m Piece.pawn b.active_color (b.piece_at m.toSq),
       some ⟨m, b.piece_at m.toSq, b.flags, b.halfmoves⟩) := by
  have h255 : f8Not 0 = 255 := by decide
  have hepb : (match Flags.en_passant_file b.flags with
      | some file => 1 <<< (b.active_color.inverse.en_passant_rank * 8 + file) == sqBB m.toSq
      | none => false) = false :=
    Bool.eq_false_iff.mpr (fun h => hepc ((epMatch_iff b.flags b.active_color m.toSq).mp h))
  rcases hcc : b.piece_at m.toSq with - | C <;> rcases hpp : m.promotion with - | pp <;>
    simp only [Board.make_move, makeTail, makeTailPieces, hPat, hcc, hpp, if_neg hdbl,
      eq_self_iff_true, if_true, h255, and_255 hflags, Nat.or_zero, hepb,
      Bool.false_eq_true, if_false, Board.remove_piece, Board.add_piece]

lemma make_move_eq_ep (b : Board) (m : Move)
    (hPat : b.piece_at m.fromSq = some Piece.pawn)
    (hflags : b.flags < 256)
    (hdbl : Nat.dist (m.fromSq.val / 8) (m.toSq.val / 8) ≠ 2)
    (hepc : epCondition b.active_color b.flags m.toSq) :
    b.make_move m =
      (makeTail ({ b with halfmoves := 0, flags := b.flags &&& f8Not 128 }.remove_piece
           Piece.pawn b.active_color.inverse
           ⟨m.fromSq.val / 8 * 8 + m.toSq.val % 8, by have := m.fromSq.isLt; omega⟩)
         m Piece.pawn b.active_color (some Piece.pawn),
       some ⟨m, some Piece.pawn, b.flags, b.halfmoves⟩) := by
  have h255 : f8Not 0 = 255 := by decide
  have hepb : (match Flags.en_passant_file b.flags with
      | some file => 1 <<< (b.active_color.inverse.en_passant_rank * 8 + file) == sqBB m.toSq
      | none => false) = true :=
    (epMatch_iff b.flags b.active_color m.toSq).mpr hepc
  rcases hpp : m.promotion with - | pp <;>
    simp only [Board.make_move, makeTail, makeTailPieces, hPat, hpp, if_neg hdbl,
      eq_self_iff_true, if_true, h255, and_255 hflags, Nat.or_zero, hepb,
      Board.remove_piece, Board.add_piece]

/-- The piece-bitboard pipeline of `unmake_move` (addition back at `from`,
removal at `to`, rook castling xor, capture restoration at
`square_mask`). -/
def unmakeTailPieces (g : Fin 12 → Nat) (m : Move) (moved piece_at_to : Piece) (color : Color)
    (cap : Option Piece) (square_mask : Nat) : Fin 12 → Nat :=
  let f := m.fromSq
  let t := m.toSq
  let movedIdx := Board.bitboard_index moved color
  let g1 := setIdx g movedIdx (g movedIdx ||| sqBB f)
  let toIdx := Board.bitboard_index piece_at_to color
  let g2 := setIdx g1 toIdx (g1 toIdx &&& bbNot (sqBB t))
  let rookIdx := Board.bitboard_index Piece.rook color
  let g3 := setIdx g2 rookIdx (g2 rookIdx ^^^
    (if moved = Piece.king ∧ Nat.dist (f.val % 8) (t.val % 8) = 2
     then ROOK_CASTLING_MOVEMASKS t else 0))
  match cap with
  | some cp => setIdx g3 (Board.bitboard_index cp color.inverse)
      (g3 (Board.bitboard_index cp color.inverse) ||| square_mask)
  | none => g3

/-- The capture-restoration mask `unmake_move` computes from the stored
flags (the en-passant-adjusted square, or the `to` square itself). -/
def unmakeSquareMask (color : Color) (fl : Nat) (t : Square) : Nat :=
  let ep_mask0 := 1 <<< (color.inverse.en_passant_rank * 8 + Flags.en_passant_file_unchecked fl)
  if Flags.en_passant_valid fl = true ∧ ep_mask0 = sqBB t then
    (if color = Color.white then ep_mask0 >>> 8 else (ep_mask0 <<< 8) &&& (2 ^ 64 - 1))
  else sqBB t

lemma unmake_move_eq_plain (b2 : Board) (md : MoveData) (Q : Piece)
    (hpm : md.move.promotion = none) (hat : b2.piece_at md.move.toSq = some Q) :
    b2.unmake_move md = some
      { pieces := unmakeTailPieces b2.pieces md.move Q Q b2.active_color.inverse
          md.captured_piece (unmakeSquareMask b2.active_color.inverse md.flags md.move.toSq),
        active_color := b2.active_color.inverse,
        flags := md.flags, halfmoves := md.halfmoves,
        fullmoves := b2.fullmoves - b2.active_color.toNat } := by
  rcases hcc : md.captured_piece with - | cp <;>
    simp only [Board.unmake_move, unmakeTailPieces, unmakeSquareMask, hpm, hat, hcc,
      Board.remove_piece, Board.add_piece]

lemma unmake_move_eq_promo (b2 : Board) (md : MoveData) (pp : Piece)
    (hpm : md.move.promotion = some pp) :
    b2.unmake_move md = some
      { pieces := unmakeTailPieces b2.pieces md.move Piece.pawn pp b2.active_color.inverse
          md.captured_piece (unmakeSquareMask b2.active_color.inverse md.flags md.move.toSq),
        active_color := b2.active_color.inverse,
        flags := md.flags, halfmoves := md.halfmoves,
        fullmoves := b2.fullmoves - b2.active_color.toNat } := by
  rcases hcc : md.captured_piece with - | cp <;>
    simp only [Board.unmake_move, unmakeTailPieces, unmakeSquareMask, hpm, hcc,
      Board.remove_piece, Board.add_piece]

lemma testBit_false_of_other_fn {g : Fin 12 → Nat}
    (hdisj : ∀ j k : Fin 12, j ≠ k → g j &&& g k = 0) {j k : Fin 12}
    (hne : j ≠ k) {i : Nat} (hj : (g j).testBit i = true) :
    (g k).testBit i = false := by
  by_contra hcon
  have hk : (g k).testBit i = true := by
    revert hcon
    cases h : (g k).testBit i <;> simp
  exact testBit_and_eq_zero (hdisj j k hne) i ⟨hj, hk⟩

lemma pieces_roundtrip_plain (g : Fin 12 → Nat) (m : Move) (P : Piece) (c : Color)
    (cap : Option Piece) (sm : Nat)
    (hpm : m.promotion = none)
    (hlt : ∀ j : Fin 12, g j < 2 ^ 64)
    (hdisj : ∀ j k : Fin 12, j ≠ k → g j &&& g k = 0)
    (hfrom : (g (Board.bitboard_index P c)).testBit m.fromSq.val = true)
    (hne : m.fromSq ≠ m.toSq)
    (hcap : (cap = none ∧ ∀ j : Fin 12, (g j).testBit m.toSq.val = false) ∨
            (∃ C, cap = some C ∧
              (g (Board.bitboard_index C c.inverse)).testBit m.toSq.val = true ∧
              sm = sqBB m.toSq)) :
    unmakeTailPieces (makeTailPieces g m P c cap) m P P c cap sm = g := by
  have htof : (g (Board.bitboard_index P c)).testBit m.toSq.val = false := by
    rcases hcap with ⟨-, hcl⟩ | ⟨C, -, hC, -⟩
    · exact hcl _
    · exact testBit_false_of_other_fn hdisj (Ne.symm (bitboard_index_color_ne P C c)) hC
  have hval1 : (((g (Board.bitboard_index P c) &&& bbNot (sqBB m.fromSq)) ||| sqBB m.toSq) |||
      sqBB m.fromSq) &&& bbNot (sqBB m.toSq) = g (Board.bitboard_index P c) :=
    bb_move_unmove (hlt _) hfrom htof hne
  rcases hcap with ⟨rfl, hcl⟩ | ⟨C, rfl, hC, rfl⟩
  · by_cases hcst : P = Piece.king ∧ Nat.dist (m.fromSq.val % 8) (m.toSq.val % 8) = 2
    · have hImIr : Board.bitboard_index P c ≠ Board.bitboard_index Piece.rook c :=
        bitboard_index_ne_piece (by rw [hcst.1]; decide) c
      have hIrIm := Ne.symm hImIr
      have hval2 : ∀ x : Nat,
          (x ^^^ ROOK_CASTLING_MOVEMASKS m.toSq) ^^^ ROOK_CASTLING_MOVEMASKS m.toSq = x :=
        fun x => Nat.xor_cancel_right _ x
      funext j
      simp only [makeTailPieces, unmakeTailPieces, hpm, if_pos hcst, setIdx_apply]
      by_cases hj1 : j = Board.bitboard_index P c
      · simp [hj1, hImIr, hIrIm, hval1, hval2]
      · by_cases hj2 : j = Board.bitboard_index Piece.rook c
        · simp [hj1, hj2, hImIr, hIrIm, hval2]
        · simp [hj1, hj2]
    · by_cases hpr : Board.bitboard_index P c = Board.bitboard_index Piece.rook c
      · funext j
        simp only [makeTailPieces, unmakeTailPieces, hpm, if_neg hcst, Nat.xor_zero,
          setIdx_apply, ← hpr]
        by_cases hj1 : j = Board.bitboard_index P c
        · simp [hj1, hval1]
        · simp [hj1]
      · have hrp := Ne.symm hpr
        funext j
        simp only [makeTailPieces, unmakeTailPieces, hpm, if_neg hcst, Nat.xor_zero,
          setIdx_apply]
        by_cases hj1 : j = Board.bitboard_index P c
        · simp [hj1, hpr, hrp, hval1]
        · by_cases hj2 : j = Board.bitboard_index Piece.rook c
          · simp [hj1, hj2, hpr, hrp]
          · simp [hj1, hj2]
  · have hImIc : Board.bitboard_index P c ≠ Board.bitboard_index C c.inverse :=
      bitboard_index_color_ne P C c
    have hIcIm := Ne.symm hImIc
    have hIrIc : Board.bitboard_index Piece.rook c ≠ Board.bitboard_index C c.inverse :=
      bitboard_index_color_ne Piece.rook C c
    have hIcIr := Ne.symm hIrIc
    have hval2 : (g (Board.bitboard_index C c.inverse) &&& bbNot (sqBB m.toSq)) ||| sqBB m.toSq =
        g (Board.bitboard_index C c.inverse) :=
      bb_remove_add (hlt _) hC
    by_cases hcst : P = Piece.king ∧ Nat.dist (m.fromSq.val % 8) (m.toSq.val % 8) = 2
    · have hImIr : Board.bitboard_index P c ≠ Board.bitboard_index Piece.rook c :=
        bitboard_index_ne_piece (by rw [hcst.1]; decide) c
      have hIrIm := Ne.symm hImIr
      have hval3 : ∀ x : Nat,
          (x ^^^ ROOK_CASTLING_MOVEMASKS m.toSq) ^^^ ROOK_CASTLING_MOVEMASKS m.toSq = x :=
        fun x => Nat.xor_cancel_right _ x
      funext j
      simp only [makeTailPieces, unmakeTailPieces, hpm, if_pos hcst, setIdx_apply]
      by_cases hj1 : j = Board.bitboard_index P c
      · simp [hj1, hImIr, hIrIm, hImIc, hIcIm, hIrIc, hIcIr, hval1, hval3]
      · by_cases hj2 : j = Board.bitboard_index Piece.rook c
        · simp [hj1, hj2, hImIr, hIrIm, hImIc, hIcIm, hIrIc, hIcIr, hval3]
        · by_cases hj3 : j = Board.bitboard_index C c.inverse
          · simp [hj1, hj2, hj3, hImIr, hIrIm, hImIc, hIcIm, hIrIc, hIcIr, hval2]
          · simp [hj1, hj2, hj3]
    · by_cases hpr : Board.bitboard_index P c = Board.bitboard_index Piece.rook c
      · funext j
        simp only [makeTailPieces, unmakeTailPieces, hpm, if_neg hcst, Nat.xor_zero,
          setIdx_apply, ← hpr]
        by_cases hj1 : j = Board.bitboard_index P c
        · simp [hj1, hImIc, hIcIm, hval1]
        · by_cases hj3 : j = Board.bitboard_index C c.inverse
          · simp [hj1, hj3, hImIc, hIcIm, hval2]
          · simp [hj1, hj3]
      · have hrp := Ne.symm hpr
        funext j
        simp only [makeTailPieces, unmakeTailPieces, hpm, if_neg hcst, Nat.xor_zero,
          setIdx_apply]
        by_cases hj1 : j = Board.bitboard_index P c
        · simp [hj1, hpr, hrp, hImIc, hIcIm, hIrIc, hIcIr, hval1]
        · by_cases hj2 : j = Board.bitboard_index Piece.rook c
          · simp [hj1, hj2, hpr, hrp, hImIc, hIcIm, hIrIc, hIcIr]
          · by_cases hj3 : j = Board.bitboard_index C c.inverse
            · simp [hj1, hj2, hj3, hImIc, hIcIm, hIrIc, hIcIr, hval2]
            · simp [hj1, hj2, hj3]

lemma pieces_roundtrip_promo (g : Fin 12 → Nat) (m : Move) (pp : Piece) (c : Color)
    (cap : Option Piece) (sm : Nat)
    (hpm : m.promotion = some pp)
    (hlt : ∀ j : Fin 12, g j < 2 ^ 64)
    (hdisj : ∀ j k : Fin 12, j ≠ k → g j &&& g k = 0)
    (hfrom : (g (Board.bitboard_index Piece.pawn c)).testBit m.fromSq.val = true)
    (hcap : (cap = none ∧ ∀ j : Fin 12, (g j).testBit m.toSq.val = false) ∨
            (∃ C, cap = some C ∧
              (g (Board.bitboard_index C c.inverse)).testBit m.toSq.val = true ∧
              sm = sqBB m.toSq)) :
    unmakeTailPieces (makeTailPieces g m Piece.pawn c cap) m Piece.pawn pp c cap
      sm = g := by
  have hppawn : pp ≠ Piece.pawn := by
    rcases promotion_piece_cases m pp hpm with rfl | rfl | rfl | rfl <;> decide
  have hcst : ¬(Piece.pawn = Piece.king ∧ Nat.dist (m.fromSq.val % 8) (m.toSq.val % 8) = 2) :=
    fun h => Piece.noConfusion h.1
  have hImIr : Board.bitboard_index Piece.pawn c ≠ Board.bitboard_index Piece.rook c :=
    bitboard_index_ne_piece (by decide) c
  have hXm : Board.bitboard_index pp c ≠ Board.bitboard_index Piece.pawn c :=
    bitboard_index_ne_piece hppawn c
  have hmX := Ne.symm hXm
  have htoX : (g (Board.bitboard_index pp c)).testBit m.toSq.val = false := by
    rcases hcap with ⟨-, hcl⟩ | ⟨C, -, hC, -⟩
    · exact hcl _
    · exact testBit_false_of_other_fn hdisj (Ne.symm (bitboard_index_color_ne pp C c)) hC
  have hval1 : (g (Board.bitboard_index Piece.pawn c) &&& bbNot (sqBB m.fromSq)) |||
      sqBB m.fromSq = g (Board.bitboard_index Piece.pawn c) :=
    bb_remove_add (hlt _) hfrom
  have hvalX : (g (Board.bitboard_index pp c) ||| sqBB m.toSq) &&& bbNot (sqBB m.toSq) =
      g (Board.bitboard_index pp c) :=
    bb_add_remove (hlt _) htoX
  rcases hcap with ⟨rfl, hcl⟩ | ⟨C, rfl, hC, rfl⟩
  · by_cases hXr : Board.bitboard_index pp c = Board.bitboard_index Piece.rook c
    · funext j
      simp only [makeTailPieces, unmakeTailPieces, hpm, if_neg hcst, Nat.xor_zero,
        setIdx_apply, ← hXr]
      by_cases hj1 : j = Board.bitboard_index Piece.pawn c
      · simp [hj1, hXm, hmX, hval1]
      · by_cases hj2 : j = Board.bitboard_index pp c
        · simp [hj1, hj2, hXm, hmX, hvalX]
        · simp [hj1, hj2]
    · have hrX := Ne.symm hXr
      funext j
      simp only [makeTailPieces, unmakeTailPieces, hpm, if_neg hcst, Nat.xor_zero,
        setIdx_apply]
      by_cases hj1 : j = Board.bitboard_index Piece.pawn c
      · simp [hj1, hXm, hmX, hXr, hrX, hImIr, Ne.symm hImIr, hval1]
      · by_cases hj2 : j = Board.bitboard_index pp c
        · simp [hj1, hj2, hXm, hmX, hXr, hrX, hvalX]
        · by_cases hj3 : j = Board.bitboard_index Piece.rook c
          · simp [hj1, hj2, hj3, hXm, hmX, hXr, hrX, hImIr, Ne.symm hImIr]
          · simp [hj1, hj2, hj3]
  · have hIcm : Board.bitboard_index C c.inverse ≠ Board.bitboard_index Piece.pawn c :=
      Ne.symm (bitboard_index_color_ne Piece.pawn C c)
    have hmIc := Ne.symm hIcm
    have hIcX : Board.bitboard_index C c.inverse ≠ Board.bitboard_index pp c :=
      Ne.symm (bitboard_index_color_ne pp C c)
    have hXIc := Ne.symm hIcX
    have hIcr : Board.bitboard_index C c.inverse ≠ Board.bitboard_index Piece.rook c :=
      Ne.symm (bitboard_index_color_ne Piece.rook C c)
    have hrIc := Ne.symm hIcr
    have hval2 : (g (Board.bitboard_index C c.inverse) &&& bbNot (sqBB m.toSq)) ||| sqBB m.toSq =
        g (Board.bitboard_index C c.inverse) :=
      bb_remove_add (hlt _) hC
    by_cases hXr : Board.bitboard_index pp c = Board.bitboard_index Piece.rook c
    · funext j
      simp only [makeTailPieces, unmakeTailPieces, hpm, if_neg hcst, Nat.xor_zero,
        setIdx_apply, ← hXr]
      by_cases hj1 : j = Board.bitboard_index Piece.pawn c
      · simp [hj1, hXm, hmX, hIcm, hmIc, hIcX, hXIc, hval1]
      · by_cases hj2 : j = Board.bitboard_index pp c
        · simp [hj1, hj2, hXm, hmX, hIcX, hXIc, hvalX]
        · by_cases hj3 : j = Board.bitboard_index C c.inverse
          · simp [hj1, hj2, hj3, hIcm, hmIc, hIcX, hXIc, hval2]
          · simp [hj1, hj2, hj3]
    · have hrX := Ne.symm hXr
      funext j
      simp only [makeTailPieces, unmakeTailPieces, hpm, if_neg hcst, Nat.xor_zero,
        setIdx_apply]
      by_cases hj1 : j = Board.bitboard_index Piece.pawn c
      · simp [hj1, hXm, hmX, hXr, hrX, hImIr, Ne.symm hImIr, hIcm, hmIc, hval1]
      · by_cases hj2 : j = Board.bitboard_index pp c
        · simp [hj1, hj2, hXm, hmX, hXr, hrX, hIcX, hXIc, hvalX]
        · by_cases hj3 : j = Board.bitboard_index Piece.rook c
          · simp [hj1, hj2, hj3, hXm, hmX, hXr, hrX, hImIr, Ne.symm hImIr, hIcr, hrIc]
          · by_cases hj4 : j = Board.bitboard_index C c.inverse
            · simp [hj1, hj2, hj3, hj4, hIcm, hmIc, hIcX, hXIc, hIcr, hrIc, hval2]
            · simp [hj1, hj2, hj3, hj4]

lemma pieces_roundtrip_ep (g : Fin 12 → Nat) (m : Move) (c : Color) (cs : Square)
    (X : Piece)
    (hXpm : (m.promotion = none ∧ X = Piece.pawn) ∨ (m.promotion = some X ∧ X ≠ Piece.pawn))
    (hlt : ∀ j : Fin 12, g j < 2 ^ 64)
    (hfrom : (g (Board.bitboard_index Piece.pawn c)).testBit m.fromSq.val = true)
    (hne : m.fromSq ≠ m.toSq)
    (hcs : (g (Board.bitboard_index Piece.pawn c.inverse)).testBit cs.val = true)
    (hclear : ∀ j : Fin 12, (g j).testBit m.toSq.val = false) :
    unmakeTailPieces
      (makeTailPieces (setIdx g (Board.bitboard_index Piece.pawn c.inverse)
          (g (Board.bitboard_index Piece.pawn c.inverse) &&& bbNot (sqBB cs)))
        m Piece.pawn c (some Piece.pawn))
      m Piece.pawn X c (some Piece.pawn) (sqBB cs) = g := by
  have hcst : ¬(Piece.pawn = Piece.king ∧ Nat.dist (m.fromSq.val % 8) (m.toSq.val % 8) = 2) :=
    fun h => Piece.noConfusion h.1
  have hpr : Board.bitboard_index Piece.pawn c ≠ Board.bitboard_index Piece.rook c :=
    bitboard_index_ne_piece (by decide) c
  have hrp := Ne.symm hpr
  have hpi : Board.bitboard_index Piece.pawn c ≠ Board.bitboard_index Piece.pawn c.inverse :=
    bitboard_index_color_ne Piece.pawn Piece.pawn c
  have hip := Ne.symm hpi
  have hri : Board.bitboard_index Piece.rook c ≠ Board.bitboard_index Piece.pawn c.inverse :=
    bitboard_index_color_ne Piece.rook Piece.pawn c
  have hir := Ne.symm hri
  have hval2 : ((g (Board.bitboard_index Piece.pawn c.inverse) &&& bbNot (sqBB cs)) &&&
      bbNot (sqBB m.toSq)) ||| sqBB cs = g (Board.bitboard_index Piece.pawn c.inverse) := by
    rw [bb_and_not_noop (lt_of_le_of_lt Nat.and_le_left (hlt _))
      (testBit_and_not_of_false (hclear _)), bb_remove_add (hlt _) hcs]
  rcases hXpm with ⟨hpm, rfl⟩ | ⟨hpm, hXpawn⟩
  · have hval1 : (((g (Board.bitboard_index Piece.pawn c) &&& bbNot (sqBB m.fromSq)) |||
        sqBB m.toSq) ||| sqBB m.fromSq) &&& bbNot (sqBB m.toSq) =
        g (Board.bitboard_index Piece.pawn c) :=
      bb_move_unmove (hlt _) hfrom (hclear _) hne
    funext j
    simp only [makeTailPieces, unmakeTailPieces, hpm, if_neg hcst, Nat.xor_zero,
      setIdx_apply]
    by_cases hj1 : j = Board.bitboard_index Piece.pawn c
    · simp [hj1, hpr, hrp, hpi, hip, hval1]
    · by_cases hj2 : j = Board.bitboard_index Piece.pawn c.inverse
      · simp [hj1, hj2, hpi, hip, hri, hir, hval2]
      · by_cases hj3 : j = Board.bitboard_index Piece.rook c
        · simp [hj1, hj2, hj3, hpr, hrp, hri, hir]
        · simp [hj1, hj2, hj3]
  · have hXm : Board.bitboard_index X c ≠ Board.bitboard_index Piece.pawn c :=
      bitboard_index_ne_piece hXpawn c
    have hmX := Ne.symm hXm
    have hXi : Board.bitboard_index X c ≠ Board.bitboard_index Piece.pawn c.inverse :=
      bitboard_index_color_ne X Piece.pawn c
    have hiX := Ne.symm hXi
    have hval1 : (g (Board.bitboard_index Piece.pawn c) &&& bbNot (sqBB m.fromSq)) |||
        sqBB m.fromSq = g (Board.bitboard_index Piece.pawn c) :=
      bb_remove_add (hlt _) hfrom
    have hvalX : (g (Board.bitboard_index X c) ||| sqBB m.toSq) &&& bbNot (sqBB m.toSq) =
        g (Board.bitboard_index X c) :=
      bb_add_remove (hlt _) (hclear _)
    by_cases hXr : Board.bitboard_index X c = Board.bitboard_index Piece.rook c
    · funext j
      simp only [makeTailPieces, unmakeTailPieces, hpm, if_neg hcst, Nat.xor_zero,
        setIdx_apply, ← hXr]
      by_cases hj1 : j = Board.bitboard_index Piece.pawn c
      · simp [hj1, hXm, hmX, hpi, hip, hval1]
      · by_cases hj2 : j = Board.bitboard_index X c
        · simp [hj1, hj2, hXm, hmX, hXi, hiX, hvalX]
        · by_cases hj3 : j = Board.bitboard_index Piece.pawn c.inverse
          · simp [hj1, hj2, hj3, hpi, hip, hXi, hiX, hval2]
          · simp [hj1, hj2, hj3]
    · have hrX := Ne.symm hXr
      funext j
      simp only [makeTailPieces, unmakeTailPieces, hpm, if_neg hcst, Nat.xor_zero,
        setIdx_apply]
      by_cases hj1 : j = Board.bitboard_index Piece.pawn c
      · simp [hj1, hXm, hmX, hpi, hip, hpr, hrp, hval1]
      · by_cases hj2 : j = Board.bitboard_index X c
        · simp [hj1, hj2, hXm, hmX, hXi, hiX, hXr, hrX, hvalX]
        · by_cases hj3 : j = Board.bitboard_index Piece.rook c
          · simp [hj1, hj2, hj3, hpr, hrp, hXr, hrX, hri, hir]
          · by_cases hj4 : j = Board.bitboard_index Piece.pawn c.inverse
            · simp [hj1, hj2, hj3, hj4, hpi, hip, hXi, hiX, hri, hir, hval2]
            · simp [hj1, hj2, hj3, hj4]

lemma testBit_and_not_self (x : Nat) (s : Square) :
    (x &&& bbNot (sqBB s)).testBit s.val = false := by
  rw [Nat.testBit_and, bbNot, Nat.testBit_xor, Nat.testBit_two_pow_sub_one, testBit_sqBB]
  simp [s.isLt]

lemma testBit_bbNot_sqBB_self (s : Square) :
    (bbNot (sqBB s)).testBit s.val = false := by
  rw [bbNot, Nat.testBit_xor, Nat.testBit_two_pow_sub_one, testBit_sqBB]
  simp [s.isLt]

lemma testBit_or_sqBB_self (x : Nat) (s : Square) :
    (x ||| sqBB s).testBit s.val = true := by
  rw [Nat.testBit_or, testBit_sqBB]
  simp

lemma makeTailPieces_testBit_to (g : Fin 12 → Nat) (m : Move) (P : Piece) (c : Color)
    (cap : Option Piece) (hpm : m.promotion = none)
    (hcl : ∀ j : Fin 12, (∀ C, cap = some C → j ≠ Board.bitboard_index C c.inverse) →
      (g j).testBit m.toSq.val = false) :
    ∀ j : Fin 12, (makeTailPieces g m P c cap j).testBit m.toSq.val =
      decide (j = Board.bitboard_index P c) := by
  have hR : (if P = Piece.king ∧ Nat.dist (m.fromSq.val % 8) (m.toSq.val % 8) = 2
      then ROOK_CASTLING_MOVEMASKS m.toSq else 0).testBit m.toSq.val = false := by
    split
    · exact rook_mask_not_self _
    · simp
  intro j
  rcases cap with - | C
  · have hclj : ∀ k : Fin 12, (g k).testBit m.toSq.val = false := fun k => hcl k (by simp)
    simp only [makeTailPieces, hpm, setIdx_apply]
    by_cases hj1 : j = Board.bitboard_index P c
    · simp [hj1, testBit_sqBB]
    · by_cases hj2 : j = Board.bitboard_index Piece.rook c
      · by_cases hpr : Board.bitboard_index P c = Board.bitboard_index Piece.rook c
        · exact absurd (hj2.trans hpr.symm) hj1
        · simp [hj1, hj2, hpr, Ne.symm hpr, Nat.testBit_xor, hR, hclj]
      · simp [hj1, hj2, hclj]
  · have hclj : ∀ k : Fin 12, k ≠ Board.bitboard_index C c.inverse →
        (g k).testBit m.toSq.val = false :=
      fun k hk => hcl k (fun C2 hc => by rw [← Option.some.inj hc]; exact hk)
    have hIcm : Board.bitboard_index C c.inverse ≠ Board.bitboard_index P c :=
      Ne.symm (bitboard_index_color_ne P C c)
    have hmIc := Ne.symm hIcm
    have hIcr : Board.bitboard_index C c.inverse ≠ Board.bitboard_index Piece.rook c :=
      Ne.symm (bitboard_index_color_ne Piece.rook C c)
    have hrIc := Ne.symm hIcr
    simp only [makeTailPieces, hpm, setIdx_apply]
    by_cases hj3 : j = Board.bitboard_index C c.inverse
    · simp [hj3, hIcm, hmIc, hIcr, hrIc, testBit_bbNot_sqBB_self]
    · by_cases hj1 : j = Board.bitboard_index P c
      · simp [hj1, hj3, hIcm, hmIc, testBit_sqBB]
      · by_cases hj2 : j = Board.bitboard_index Piece.rook c
        · by_cases hpr : Board.bitboard_index P c = Board.bitboard_index Piece.rook c
          · exact absurd (hj2.trans hpr.symm) hj1
          · simp [hj1, hj2, hj3, hpr, Ne.symm hpr, hIcr, hrIc, Nat.testBit_xor, hR, hclj _ hrIc]
        · simp [hj1, hj2, hj3, hclj j hj3]

lemma unmake_makeTail_std (b : Board) (m : Move) (P : Piece) (S : Board)
    (hSp : S.pieces = b.pieces) (hSf : S.fullmoves = b.fullmoves)
    (hlt : ∀ j : Fin 12, b.pieces j < 2 ^ 64)
    (hdisj : ∀ j k : Fin 12, j ≠ k → b.pieces j &&& b.pieces k = 0)
    (hfrom : (b.bitboard P b.active_color).testBit m.fromSq.val = true)
    (hne : m.fromSq ≠ m.toSq)
    (hpromo : ∀ pp, m.promotion = some pp → P = Piece.pawn)
    (hto : (∀ j : Fin 12, (b.pieces j).testBit m.toSq.val = false) ∨
           (¬ epCondition b.active_color b.flags m.toSq ∧
             ∃ C : Piece, (b.bitboard C b.active_color.inverse).testBit m.toSq.val = true))
    (hfm : b.fullmoves + 1 < 4294967296) :
    (makeTail S m P b.active_color (b.piece_at m.toSq)).unmake_move
      ⟨m, b.piece_at m.toSq, b.flags, b.halfmoves⟩ = some b := by
  have hfullm : (S.fullmoves + b.active_color.inverse.toNat) % 4294967296 -
      b.active_color.inverse.toNat = b.fullmoves := by
    have := color_toNat_le_one b.active_color.inverse
    rw [hSf]
    omega
  rcases hto with hclear | ⟨hnep, C, hC⟩
  · have hcap : b.piece_at m.toSq = none := piece_at_none b m.toSq hclear
    rw [hcap]
    cases hpm : m.promotion with
    | some pp =>
      have hPp : P = Piece.pawn := hpromo pp hpm
      subst hPp
      rw [unmake_move_eq_promo _ ⟨m, none, b.flags, b.halfmoves⟩ pp hpm]
      simp only [makeTail, color_inverse_inverse, hSp]
      rw [pieces_roundtrip_promo b.pieces m pp b.active_color none _ hpm hlt hdisj hfrom
        (Or.inl ⟨rfl, hclear⟩), hfullm]
    | none =>
      have hcl2 : ∀ j : Fin 12, (∀ C2, (none : Option Piece) = some C2 →
          j ≠ Board.bitboard_index C2 b.active_color.inverse) →
          (b.pieces j).testBit m.toSq.val = false :=
        fun j _ => hclear j
      have hbits := makeTailPieces_testBit_to b.pieces m P b.active_color none hpm hcl2
      have hB't : (makeTail S m P b.active_color none).piece_at m.toSq = some P := by
        refine piece_at_exact _ _ P b.active_color ?_ ?_
        · show (makeTailPieces S.pieces m P b.active_color none
            (Board.bitboard_index P b.active_color)).testBit m.toSq.val = true
          rw [hSp, hbits]
          simp
        · intro j hj
          show (makeTailPieces S.pieces m P b.active_color none j).testBit m.toSq.val = false
          rw [hSp, hbits]
          simp [hj]
      rw [unmake_move_eq_plain _ ⟨m, none, b.flags, b.halfmoves⟩ P hpm hB't]
      simp only [makeTail, color_inverse_inverse, hSp]
      rw [pieces_roundtrip_plain b.pieces m P b.active_color none _ hpm hlt hdisj hfrom hne
        (Or.inl ⟨rfl, hclear⟩), hfullm]
  · have hcap : b.piece_at m.toSq = some C :=
      piece_at_exact b m.toSq C b.active_color.inverse hC
        (fun j hj => testBit_false_of_other_fn hdisj (Ne.symm hj) hC)
    rw [hcap]
    have hnep2 : ¬(Flags.en_passant_valid b.flags = true ∧
        1 <<< (b.active_color.inverse.en_passant_rank * 8 +
          Flags.en_passant_file_unchecked b.flags) = sqBB m.toSq) := hnep
    have hsm : unmakeSquareMask b.active_color b.flags m.toSq = sqBB m.toSq := by
      unfold unmakeSquareMask
      rw [if_neg hnep2]
    cases hpm : m.promotion with
    | some pp =>
      have hPp : P = Piece.pawn := hpromo pp hpm
      subst hPp
      rw [unmake_move_eq_promo _ ⟨m, some C, b.flags, b.halfmoves⟩ pp hpm]
      simp only [makeTail, color_inverse_inverse, hSp]
      rw [hsm, pieces_roundtrip_promo b.pieces m pp b.active_color (some C) _ hpm hlt hdisj
        hfrom (Or.inr ⟨C, rfl, hC, rfl⟩), hfullm]
    | none =>
      have hcl2 : ∀ j : Fin 12, (∀ C2, (some C : Option Piece) = some C2 →
          j ≠ Board.bitboard_index C2 b.active_color.inverse) →
          (b.pieces j).testBit m.toSq.val = false := by
        intro j hj
        exact testBit_false_of_other_fn hdisj (Ne.symm (hj C rfl)) hC
      have hbits := makeTailPieces_testBit_to b.pieces m P b.active_color (some C) hpm hcl2
      have hB't : (makeTail S m P b.active_color (some C)).piece_at m.toSq = some P := by
        refine piece_at_exact _ _ P b.active_color ?_ ?_
        · show (makeTailPieces S.pieces m P b.active_color (some C)
            (Board.bitboard_index P b.active_color)).testBit m.toSq.val = true
          rw [hSp, hbits]
          simp
        · intro j hj
          show (makeTailPieces S.pieces m P b.active_color (some C) j).testBit m.toSq.val = false
          rw [hSp, hbits]
          simp [hj]
      rw [unmake_move_eq_plain _ ⟨m, some C, b.flags, b.halfmoves⟩ P hpm hB't]
      simp only [makeTail, color_inverse_inverse, hSp]
      rw [hsm, pieces_roundtrip_plain b.pieces m P b.active_color (some C) _ hpm hlt hdisj
        hfrom hne (Or.inr ⟨C, rfl, hC, rfl⟩), hfullm]

lemma unmake_makeTail_ep (b : Board) (m : Move) (cs : Square) (S : Board)
    (hSp : S.pieces = setIdx b.pieces (Board.bitboard_index Piece.pawn b.active_color.inverse)
      (b.pieces (Board.bitboard_index Piece.pawn b.active_color.inverse) &&& bbNot (sqBB cs)))
    (hSf : S.fullmoves = b.fullmoves)
    (hlt : ∀ j : Fin 12, b.pieces j < 2 ^ 64)
    (hfrom : (b.bitboard Piece.pawn b.active_color).testBit m.fromSq.val = true)
    (hne : m.fromSq ≠ m.toSq)
    (hcs : (b.bitboard Piece.pawn b.active_color.inverse).testBit cs.val = true)
    (hclear : ∀ j : Fin 12, (b.pieces j).testBit m.toSq.val = false)
    (hsm : unmakeSquareMask b.active_color b.flags m.toSq = sqBB cs)
    (hfm : b.fullmoves + 1 < 4294967296) :
    (makeTail S m Piece.pawn b.active_color (some Piece.pawn)).unmake_move
      ⟨m, some Piece.pawn, b.flags, b.halfmoves⟩ = some b := by
  have hfullm : (S.fullmoves + b.active_color.inverse.toNat) % 4294967296 -
      b.active_color.inverse.toNat = b.fullmoves := by
    have := color_toNat_le_one b.active_color.inverse
    rw [hSf]
    omega
  cases hpm : m.promotion with
  | some pp =>
    rw [unmake_move_eq_promo _ ⟨m, some Piece.pawn, b.flags, b.halfmoves⟩ pp hpm]
    simp only [makeTail, color_inverse_inverse, hSp]
    rw [hsm, pieces_roundtrip_ep b.pieces m b.active_color cs pp
      (Or.inr ⟨hpm, by rcases promotion_piece_cases m pp hpm with rfl | rfl | rfl | rfl <;> decide⟩)
      hlt hfrom hne hcs hclear, hfullm]
  | none =>
    have hcl2 : ∀ j : Fin 12, (∀ C2, (some Piece.pawn : Option Piece) = some C2 →
        j ≠ Board.bitboard_index C2 b.active_color.inverse) →
        (S.pieces j).testBit m.toSq.val = false := by
      intro j hj
      have hjne : j ≠ Board.bitboard_index Piece.pawn b.active_color.inverse := hj _ rfl
      rw [hSp, setIdx_other _ _ _ hjne]
      exact hclear j
    have hbits := makeTailPieces_testBit_to S.pieces m Piece.pawn b.active_color
      (some Piece.pawn) hpm hcl2
    have hB't : (makeTail S m Piece.pawn b.active_color
        (some Piece.pawn)).piece_at m.toSq = some Piece.pawn := by
      refine piece_at_exact _ _ Piece.pawn b.active_color ?_ ?_
      · show (makeTailPieces S.pieces m Piece.pawn b.active_color (some Piece.pawn)
            (Board.bitboard_index Piece.pawn b.active_color)).testBit m.toSq.val = true
        rw [hbits]
        simp
      · intro j hj
        show (makeTailPieces S.pieces m Piece.pawn b.active_color
            (some Piece.pawn) j).testBit m.toSq.val = false
        rw [hbits]
        simp [hj]
    rw [unmake_move_eq_plain _ ⟨m, some Piece.pawn, b.flags, b.halfmoves⟩ Piece.pawn hpm hB't]
    simp only [makeTail, color_inverse_inverse, hSp]
    rw [hsm, pieces_roundtrip_ep b.pieces m b.active_color cs Piece.pawn
      (Or.inl ⟨hpm, rfl⟩) hlt hfrom hne hcs hclear, hfullm]

/-! ## Concrete positions used as claim evidence -/

/-- The perft suite's POSITION_3 FEN
(`8/2p5/3p4/KP5r/1R3p1k/8/4P1P1/8 w - - 0 1`), whose first rank ends in a
run of empty squares. -/
def POSITION_3_FEN : List Char := "8/2p5/3p4/KP5r/1R3p1k/8/4P1P1/8 w - - 0 1".toList

/-- What `Board::fen` actually prints for POSITION_3: the trailing `8` of
the last rank is missing. -/
def POSITION_3_REPRINT : List Char := "8/2p5/3p4/KP5r/1R3p1k/8/4P1P1/ w - - 0 1".toList

/-- A position with only a white rook on a1, white king e1, black pawn a7,
black king e8; halfmove clock at 5.  `Ra1xa7` is a non-pawn capture. -/
def C5_BOARD : Board :=
  { pieces := fun i => [0, 0, 1, 0, 16, 0, 0, 0, 0, 0, 1152921504606846976, 281474976710656].getD i.val 0,
    active_color := .white,
    flags := 0,
    halfmoves := 5,
    fullmoves := 10 }

/-- A pawnless position (the pawn-generation segments are empty, so the
inverted `pawn_data` indexing and its Rust panic are not in play): white
king e1 and knight b1, black king e8, no castling rights. -/
def C8_BOARD : Board :=
  { pieces := fun i => [2, 0, 0, 0, 16, 0, 0, 0, 0, 0, 1152921504606846976, 0].getD i.val 0,
    active_color := .white,
    flags := 0,
    halfmoves := 0,
    fullmoves := 1 }

/-- White pawn b7 one step from promotion, black rook a8 capturable by it;
white king e1, black king e8; White to move.  All twelve piece bitboards
are pairwise disjoint. -/
def C7_BOARD : Board :=
  { pieces := fun i => [0, 0, 0, 0, 16, 562949953421312, 0, 0, 72057594037927936, 0, 1152921504606846976, 0].getD i.val 0,
    active_color := .white,
    flags := 0,
    halfmoves := 0,
    fullmoves := 1 }

/-- White: king e1, rook h1, kingside right; Black: king a8, rook g5.
The black rook attacks g1 (the castling landing square) but neither e1
nor f1; the castling path squares f1, g1 are empty. -/
def C6_BOARD : Board :=
  { pieces := fun i => [0, 0, 128, 0, 16, 0, 0, 0, 274877906944, 0, 72057594037927936, 0].getD i.val 0,
    active_color := .white,
    flags := 1,
    halfmoves := 0,
    fullmoves := 1 }

/-! ## Claim theorems -/

/-- C9: `make_move` returns `Err(MakeMoveError)` iff no piece of either
color stands on the move's `from` square, and on that failure path the
board is returned unchanged (the Rust early return precedes every
mutation). -/
theorem make_move_error_contract (b : Board) (m : Move) :
    ((b.make_move m).2 = none ↔ b.piece_at m.fromSq = none) ∧
    ((b.make_move m).2 = none → (b.make_move m).1 = b) := by
  cases h : b.piece_at m.fromSq <;> simp [Board.make_move, h]

/-- C10: the color-occupancy accessor naming is inverted in the
shared-`MoveGen` board: `bitboard_index(p, White) = p` and
`bitboard_index(p, Black) = p + 6`, so `white_pieces()` (union of
`pieces[6..12]`) is the union of the six BLACK piece bitboards and
`black_pieces()` (union of `pieces[0..6]`) is the union of the six WHITE
piece bitboards; `fen()` relies on this inversion — testing
`black_pieces()` to uppercase the White pieces — so the start position
still serializes to `START_FEN`. -/
theorem white_black_accessors_inverted :
    (∀ b : Board, b.white_pieces = b.pieces_union Color.black ∧
      b.black_pieces = b.pieces_union Color.white) ∧
    (∀ p : Piece, (Board.bitboard_index p Color.white).val = p.toNat ∧
      (Board.bitboard_index p Color.black).val = p.toNat + 6) ∧
    Board.default.fen = START_FEN :=
  ⟨fun _ => ⟨rfl, rfl⟩, fun p => ⟨by cases p <;> rfl, by cases p <;> rfl⟩, by decide⟩

/-- C4 (code bug evidence): from the start position (White to move,
`fullmoves = 1`), after White's `e2e4` the source's
`fullmoves += color.inverse() as u32` yields `fullmoves = 2` — the
counter is incremented after WHITE's move, where the claim (and the FEN
standard) require it to increment only after Black's. -/
theorem fullmoves_incremented_after_whites_move :
    Board.default.active_color = Color.white ∧
    Board.default.fullmoves = 1 ∧
    ((Board.default.make_move (Move.new E2 E4)).2).isSome = true ∧
    ((Board.default.make_move (Move.new E2 E4)).1).fullmoves = 2 := by decide

/-- C5 (code bug evidence): in `C5_BOARD` the white rook on a1 captures
the black pawn on a7 (a capturing move by a non-pawn); `make_move` leaves
the halfmove clock at `5 + 1 = 6` instead of resetting it to 0 — no
capture reset exists in the source. -/
theorem halfmoves_not_reset_by_rook_capture :
    C5_BOARD.piece_at A1 = some Piece.rook ∧
    C5_BOARD.piece_at A7 = some Piece.pawn ∧
    ((C5_BOARD.make_move (Move.new A1 A7)).2).map MoveData.captured_piece =
      some (some Piece.pawn) ∧
    ((C5_BOARD.make_move (Move.new A1 A7)).1).halfmoves = 6 := by decide

/-- C3 (code bug evidence): POSITION_3's FEN is syntactically and
semantically valid and loads successfully, but `fen()` drops the digit
run for the trailing empty squares of rank 1 (the serialization loop
`break`s at rank −1 before flushing), so the round-trip returns
`.../4P1P1/ w - - 0 1` instead of `.../4P1P1/8 w - - 0 1`. -/
theorem fen_roundtrip_drops_trailing_empties_of_rank_one :
    (Board.load_from_fen POSITION_3_FEN).isSome = true ∧
    (Board.load_from_fen POSITION_3_FEN).map Board.fen = some POSITION_3_REPRINT ∧
    POSITION_3_REPRINT ≠ POSITION_3_FEN := by decide

/-- Development check: the start position round-trips through the FEN
codec (its first rank has no trailing empty squares). -/
theorem fen_roundtrip_start_position :
    Board.load_from_fen START_FEN = some Board.default ∧
    Board.default.fen = START_FEN := by decide

/-- C6 (counterexample): in `C6_BOARD` White may castle kingside as far
as rights, empty blockers, and safety of e1 and f1 are concerned, and
only the landing square g1 is attacked; were the landing square really
left to the legality filter, `pseudolegal_moves` would emit `e1g1` — it
does not, because `CASTLING_CHECKABLES` includes g1. -/
theorem castling_landing_square_attack_blocks_generation :
    Flags.kingside C6_BOARD.flags Color.white = true ∧
    CASTLING_BLOCKERS Color.white ⟨0, by decide⟩ &&& C6_BOARD.occupied = 0 ∧
    MoveGen.square_attacked_by C6_BOARD E1 Color.black = false ∧
    MoveGen.square_attacked_by C6_BOARD F1 Color.black = false ∧
    MoveGen.square_attacked_by C6_BOARD G1 Color.black = true ∧
    Move.new E1 G1 ∉ MoveGen.pseudolegal_moves C6_BOARD := by decide

/-- C8 (counterexample): in the pawnless `C8_BOARD` with depth 1, the
list returned by `divide` is in generator order — the five king moves
(from square e1 = 4) precede the three knight moves (from square b1 = 1)
— and is therefore not sorted ascending by the `Move` ordering. -/
theorem divide_output_not_sorted_at_start :
    ¬ List.Sorted (fun a b => Move.le a b = true)
      (((divide C8_BOARD 1).2).map Prod.fst) := by decide

/-- The moves pushed by `divide`'s fold are one per processed root move,
in order, regardless of the starting accumulator. -/
lemma divide_foldl_fst (depth : Nat) (ms : List Move) :
    ∀ st : Board × Nat × List (Move × Nat),
      (((ms.foldl (divideStep depth) st).2.2).map Prod.fst) =
        ((st.2.2).map Prod.fst) ++ ms := by
  induction ms with
  | nil => intro st; simp
  | cons mv rest ih =>
    intro st
    rw [List.foldl_cons, ih]
    rcases hmk : st.1.make_move mv with ⟨b2, omd⟩
    cases omd <;> simp [divideStep, hmk]

/-- C8 (amended): `divide` returns exactly one `(move, leaf-count)` pair
per legal root move, in the move generator's emission order (the order
`legal_moves` returns) — it does not sort. -/
theorem divide_pairs_in_generator_order (b : Board) (depth : Nat) :
    (((divide b depth).2).map Prod.fst) = MoveGen.legal_moves b := by
  have h := divide_foldl_fst depth (MoveGen.legal_moves b) (b, 0, [])
  simpa [divide] using h

/-- The square the king passes over while castling (modelled for stating
claim C6: F1/D1 for White, F8/D8 for Black). -/
def castlingTransit (c : Color) (i : Fin 2) : Square :=
  match c with
  | .white => if i.val = 0 then F1 else D1
  | .black => if i.val = 0 then F8 else D8

/-- C6 (amended): the attack tests gating a castling emission in
`pseudolegal_moves` are exactly: the king's home square (the `in_check`
test), plus every square of `CASTLING_CHECKABLES` — which consists of the
transit square AND the king's final landing square.  So the landing
square IS attack-tested during pseudo-legal generation, and the emission
holds precisely when the right is set, the blocker squares are empty, and
home, transit and landing squares are all unattacked. -/
lemma squaresOf_checkables_w0 : squaresOf (CASTLING_CHECKABLES Color.white 0) = [F1, G1] := by decide

lemma squaresOf_checkables_w1 : squaresOf (CASTLING_CHECKABLES Color.white 1) = [C1, D1] := by decide

lemma squaresOf_checkables_b0 : squaresOf (CASTLING_CHECKABLES Color.black 0) = [F8, G8] := by decide

lemma squaresOf_checkables_b1 : squaresOf (CASTLING_CHECKABLES Color.black 1) = [C8, D8] := by decide

theorem castling_attack_test_scope (b : Board) (ksq : Square) (i : Fin 2) :
    (Move.new (KING_STARTING_SQUARES b.active_color) (CASTLING_DESTINATIONS b.active_color i) ∈
        MoveGen.castling_moves b ksq ↔
      (ksq = KING_STARTING_SQUARES b.active_color ∧
       MoveGen.square_attacked_by b (KING_STARTING_SQUARES b.active_color) b.active_color.inverse = false ∧
       (if i.val = 0 then Flags.kingside b.flags b.active_color
        else Flags.queenside b.flags b.active_color) = true ∧
       CASTLING_BLOCKERS b.active_color i &&& b.occupied = 0 ∧
       MoveGen.square_attacked_by b (castlingTransit b.active_color i) b.active_color.inverse = false ∧
       MoveGen.square_attacked_by b (CASTLING_DESTINATIONS b.active_color i) b.active_color.inverse = false)) ∧
    CASTLING_CHECKABLES b.active_color i =
      sqBB (castlingTransit b.active_color i) ||| sqBB (CASTLING_DESTINATIONS b.active_color i) := by
  have hi : i = 0 ∨ i = 1 := by omega
  cases hc : b.active_color <;> rcases hi with rfl | rfl <;>
    refine ⟨?_, by decide⟩ <;>
    · unfold MoveGen.castling_moves
      simp only [hc, Color.inverse]
      have h1 : Move.new E1 G1 ≠ Move.new E1 C1 := by decide
      have h2 : Move.new E1 C1 ≠ Move.new E1 G1 := by decide
      have h3 : Move.new E8 G8 ≠ Move.new E8 C8 := by decide
      have h4 : Move.new E8 C8 ≠ Move.new E8 G8 := by decide
      simp_all [squaresOf_checkables_w0, squaresOf_checkables_w1, squaresOf_checkables_b0,
        squaresOf_checkables_b1, castlingTransit, CASTLING_DESTINATIONS, KING_STARTING_SQUARES,
        List.all_cons, List.all_nil]
      try tauto

/-- C2 (code bug evidence): at the start position `pseudolegal_moves`
selects BLACK's pawn push sets on White's turn (`pawn_data` is ordered
[black, white] but indexed by `Color::White = 0`), so `perft(1)` counts
36 "moves" (32 promotion pushes of the black rank-7 pawns plus the 4
knight moves) instead of 20; moreover the double-push set contains square
a7 = 48 whose target 48 + 16 = 64 makes the Rust code index
`Square::ALL[64]` and panic, so the reference perft values are
unreachable.  (The embedding models the panic as emitting nothing.) -/
theorem perft_start_wrong_and_panics :
    perft Board.default 1 = 36 ∧ (36 : Nat) ≠ 20 ∧
    MoveGen.single_push_froms Board.default = Board.default.bitboard .pawn .black ∧
    (MoveGen.double_push_froms Board.default).testBit 48 = true ∧ 48 + 16 = 64 := by decide

/-- C7: promotion completeness.  In any board with pairwise-disjoint piece
bitboards, for a pawn single push (a from-square of the generator's own
`single_push_froms` set with its one-step target) or a pawn capture (an
active-side pawn with a `PAWN_CAPTURES`-and-enemy target) whose
destination `t` lies on rank 0 or 7 (`t / 8 % 7 = 0`), `pseudolegal_moves`
contains exactly one move `(f, t, promotion = p)` for each of Knight,
Bishop, Rook and Queen, and no move `(f, t)` without a promotion piece. -/
theorem promotion_completeness (b : Board) (f t : Square)
    (hdisj : ∀ j k : Fin 12, j ≠ k → b.pieces j &&& b.pieces k = 0)
    (ht : ((MoveGen.single_push_froms b).testBit f.val = true ∧
             (t.val : Int) = f.val + 8 * b.active_color.direction) ∨
          ((b.bitboard Piece.pawn b.active_color).testBit f.val = true ∧
             (PAWN_CAPTURES b.active_color f &&& b.enemy_pieces).testBit t.val = true))
    (hback : t.val / 8 % 7 = 0) :
    (∀ p : Piece,
      p = Piece.knight ∨ p = Piece.bishop ∨ p = Piece.rook ∨ p = Piece.queen →
      List.countP (moveMatches f t (some p)) (MoveGen.pseudolegal_moves b) = 1) ∧
    List.countP (moveMatches f t none) (MoveGen.pseudolegal_moves b) = 0 := by
  constructor
  · intro p hp
    rw [pseudolegal_promo_count b f t (some p) hdisj ht hback]
    exact countP_promos_some f t p hp
  · rw [pseudolegal_promo_count b f t none hdisj ht hback]
    exact countP_promos_none f t

/-- C7 witness: in `C7_BOARD` the white pawn on b7 can capture the black
rook on a8, a back-rank destination; `pseudolegal_moves` holds exactly
one queen-promotion b7xa8 and no promotion-less b7-to-a8 move. -/
theorem promotion_completeness_witness :
    List.countP (moveMatches B7 A8 (some Piece.queen))
        (MoveGen.pseudolegal_moves C7_BOARD) = 1 ∧
    List.countP (moveMatches B7 A8 none) (MoveGen.pseudolegal_moves C7_BOARD) = 0 :=
  ⟨(promotion_completeness C7_BOARD B7 A8 (by decide)
      (Or.inr (by decide)) (by decide)).1 Piece.queen
      (Or.inr (Or.inr (Or.inr rfl))),
   (promotion_completeness C7_BOARD B7 A8 (by decide)
      (Or.inr (by decide)) (by decide)).2⟩

/-- C1: make/unmake round-trip identity.  For every board whose twelve
piece bitboards are pairwise disjoint `u64` values with a `u8` flags byte
(invariants of every position reachable from the start), and every move
`m` whose piece `P` of the active color stands on the from-square, whose
destination is empty or holds an enemy piece (and is not the en-passant
ghost square when capturing), whose promotion is only set for pawn moves,
with consistent en-passant geometry and no fullmove-counter overflow: if
`make_move` succeeds with data `md` then `unmake_move` on the resulting
board with `md` restores the original board bit for bit - all twelve
bitboards, active color, flags, halfmoves and fullmoves. -/
theorem make_unmake_roundtrip (b : Board) (m : Move) (P : Piece)
    (hlt : ∀ j : Fin 12, b.pieces j < 2 ^ 64)
    (hflags : b.flags < 256)
    (hdisj : ∀ j k : Fin 12, j ≠ k → b.pieces j &&& b.pieces k = 0)
    (hfrom : (b.bitboard P b.active_color).testBit m.fromSq.val = true)
    (hne : m.fromSq ≠ m.toSq)
    (hpromo : ∀ pp, m.promotion = some pp → P = Piece.pawn)
    (hto : (∀ j : Fin 12, (b.pieces j).testBit m.toSq.val = false) ∨
           (¬ epCondition b.active_color b.flags m.toSq ∧
             ∃ C : Piece, (b.bitboard C b.active_color.inverse).testBit m.toSq.val = true))
    (hep : P = Piece.pawn → epCondition b.active_color b.flags m.toSq →
           Nat.dist (m.fromSq.val / 8) (m.toSq.val / 8) ≠ 2 →
           (b.bitboard Piece.pawn b.active_color.inverse).testBit
             (m.fromSq.val / 8 * 8 + m.toSq.val % 8) = true ∧
           (m.fromSq.val / 8 * 8 + m.toSq.val % 8 =
             if b.active_color = Color.white then m.toSq.val - 8 else m.toSq.val + 8))
    (hfm : b.fullmoves + 1 < 4294967296) :
    ∀ b2 md, b.make_move m = (b2, some md) → b2.unmake_move md = some b := by
  intro b2 md hmk
  have hPat : b.piece_at m.fromSq = some P :=
    piece_at_exact b m.fromSq P b.active_color hfrom
      (fun j hj => testBit_false_of_other_fn hdisj (Ne.symm hj) hfrom)
  by_cases hPp : P = Piece.pawn
  · subst hPp
    by_cases hdbl : Nat.dist (m.fromSq.val / 8) (m.toSq.val / 8) = 2
    · rw [make_move_eq_double b m hPat hdbl, Prod.mk.injEq] at hmk
      obtain ⟨hb2, hmd⟩ := hmk
      subst hb2
      have hmd2 := Option.some.inj hmd
      subst hmd2
      exact unmake_makeTail_std b m Piece.pawn _ rfl rfl hlt hdisj hfrom hne hpromo hto hfm
    · by_cases hepc : epCondition b.active_color b.flags m.toSq
      · obtain ⟨hcsbit, hgeom⟩ := hep rfl hepc hdbl
        have hclear : ∀ j : Fin 12, (b.pieces j).testBit m.toSq.val = false := by
          rcases hto with h | ⟨hn, -⟩
          · exact h
          · exact absurd hepc hn
        rw [make_move_eq_ep b m hPat hflags hdbl hepc, Prod.mk.injEq] at hmk
        obtain ⟨hb2, hmd⟩ := hmk
        subst hb2
        have hmd2 := Option.some.inj hmd
        subst hmd2
        obtain ⟨hv, hmask⟩ := hepc
        have hfile : Flags.en_passant_file_unchecked b.flags < 8 := by
          unfold Flags.en_passant_file_unchecked
          have h1 : b.flags &&& 112 ≤ 112 := Nat.and_le_right
          rw [Nat.shiftRight_eq_div_pow]
          omega
        have ht : m.toSq.val = b.active_color.inverse.en_passant_rank * 8 +
            Flags.en_passant_file_unchecked b.flags := by
          have h2 := hmask
          unfold sqBB at h2
          rw [Nat.one_shiftLeft, Nat.one_shiftLeft] at h2
          exact (Nat.pow_right_injective (le_refl 2) h2).symm
        have hsm : unmakeSquareMask b.active_color b.flags m.toSq =
            sqBB ⟨m.fromSq.val / 8 * 8 + m.toSq.val % 8, by have := m.fromSq.isLt; omega⟩ := by
          simp only [unmakeSquareMask]
          rw [if_pos ⟨hv, hmask⟩, hmask]
          by_cases hw : b.active_color = Color.white
          · rw [if_pos hw]
            rw [hw] at ht
            simp only [Color.inverse, Color.en_passant_rank, Color.toNat] at ht
            have hge : 8 ≤ m.toSq.val := by omega
            have hcv : m.fromSq.val / 8 * 8 + m.toSq.val % 8 = m.toSq.val - 8 := by
              have hg2 := hgeom
              rw [hw] at hg2
              simpa using hg2
            show sqBB m.toSq >>> 8 = sqBB _
            simp only [sqBB, Nat.one_shiftLeft]
            rw [Nat.shiftRight_eq_div_pow, Nat.pow_div hge (by norm_num)]
            exact congrArg (2 ^ ·) hcv.symm
          · have hb : b.active_color = Color.black := by
              cases hcol : b.active_color with
              | white => exact absurd hcol hw
              | black => rfl
            rw [if_neg hw]
            rw [hb] at ht
            simp only [Color.inverse, Color.en_passant_rank, Color.toNat] at ht
            have hlt64 : m.toSq.val + 8 < 64 := by omega
            have hcv : m.fromSq.val / 8 * 8 + m.toSq.val % 8 = m.toSq.val + 8 := by
              have hg2 := hgeom
              rw [hb] at hg2
              simpa using hg2
            show (sqBB m.toSq <<< 8) &&& (2 ^ 64 - 1) = sqBB _
            simp only [sqBB, Nat.one_shiftLeft]
            rw [Nat.shiftLeft_eq, ← pow_add, Nat.and_pow_two_sub_one_eq_mod,
              Nat.mod_eq_of_lt (Nat.pow_lt_pow_right (by omega) hlt64)]
            exact congrArg (2 ^ ·) hcv.symm
        exact unmake_makeTail_ep b m _ _ rfl rfl hlt hfrom hne hcsbit hclear hsm hfm
      · rw [make_move_eq_plainpawn b m hPat hflags hdbl hepc, Prod.mk.injEq] at hmk
        obtain ⟨hb2, hmd⟩ := hmk
        subst hb2
        have hmd2 := Option.some.inj hmd
        subst hmd2
        exact unmake_makeTail_std b m Piece.pawn _ rfl rfl hlt hdisj hfrom hne hpromo hto hfm
  · rw [make_move_eq_nonpawn b m P hPat hPp, Prod.mk.injEq] at hmk
    obtain ⟨hb2, hmd⟩ := hmk
    subst hb2
    have hmd2 := Option.some.inj hmd
    subst hmd2
    exact unmake_makeTail_std b m P _ rfl rfl hlt hdisj hfrom hne hpromo hto hfm

/-- C1 witness: the double push e2e4 from the start position; `make_move`
succeeds and `unmake_move` restores the start position bit for bit. -/
theorem make_unmake_roundtrip_witness :
    (Board.default.make_move (Move.new E2 E4)).1.unmake_move
      { move := Move.new E2 E4, captured_piece := none, flags := 15, halfmoves := 0 } =
      some Board.default :=
  make_unmake_roundtrip Board.default (Move.new E2 E4) Piece.pawn
    (by decide) (by decide) (by decide) (by decide) (by decide)
    (fun pp h => rfl) (Or.inl (by decide)) (by decide) (by decide)
    (Board.default.make_move (Move.new E2 E4)).1
    { move := Move.new E2 E4, captured_piece := none, flags := 15, halfmoves := 0 }
    (by decide)

end Chress
